import Mathlib

/-!
Verification of the IntervalMap AVL interval tree.

Shallow embedding of the interval-map library: an AVL-balanced binary search
tree keyed by closed numeric intervals, augmented with a cached subtree height
and a cached maximum right endpoint.  Interval bounds and query points are
modelled as `Int`; the opaque JS values are a type parameter `V`.

Every definition mirrors the corresponding source function; cached fields are
stored in the node constructor exactly as the source stores them, so that
cache-correctness is a real invariant rather than true by construction.
-/

namespace IntervalMapVerif

/-- The external interval type: a closed range `[a, b]`.  Bounds are numbers,
modelled as `Int`. -/
structure Interval where
  a : Int
  b : Int
  deriving DecidableEq, Repr

/-- Modelled from the spec: the external `Interval` collaborator supplies a
total comparison consistent with lexicographic `(a, b)` order (`compareTo`
is imported from the interval package, not part of this repository).
Returns a negative, zero or positive number like the JS `compareTo`. -/
def Interval.compareTo (x y : Interval) : Int :=
  if x.a < y.a then -1
  else if y.a < x.a then 1
  else if x.b < y.b then -1
  else if y.b < x.b then 1
  else 0

/-- Strict lexicographic `(a, b)` order on intervals. -/
def Interval.ltI (x y : Interval) : Prop :=
  x.a < y.a ∨ (x.a = y.a ∧ x.b < y.b)

instance (x y : Interval) : Decidable (Interval.ltI x y) :=
  inferInstanceAs (Decidable (_ ∨ _))

/-- A tree node (`IntervalMapNode`): left child, interval, value, cached
height `h`, cached subtree max `m`, right child.  `nil` is the JS `null`. -/
inductive Node (V : Type) where
  | nil : Node V
  | node (l : Node V) (i : Interval) (v : V) (hgt : Nat) (mx : Int) (r : Node V) : Node V
  deriving DecidableEq

namespace Node

variable {V : Type}

/-- JS `height(n)`: 0 for an absent node, the cached height otherwise. -/
def height : Node V → Nat
  | nil => 0
  | node _ _ _ hh _ _ => hh

/-- Cached subtree max of `n` if present, else the default `d`
(the JS pattern `if (n && n.m > d) d = n.m`). -/
def mWith : Node V → Int → Int
  | nil, d => d
  | node _ _ _ _ m _, d => max d m

/-- JS `update(n)`: recompute the cached height and subtree max from the
children's caches and the node's own right endpoint. -/
def update : Node V → Node V
  | nil => nil
  | node l i v _ _ r => node l i v (max (height l) (height r) + 1) (mWith r (mWith l i.b)) r

/-- JS `bf(n)`: balance factor, cached height of left minus right. -/
def bf : Node V → Int
  | nil => 0
  | node l _ _ _ _ r => (height l : Int) - (height r : Int)

/-- JS `rotL(x)`: single left rotation; re-augments the two touched nodes,
child before former parent.  (The source only calls it when `x.r` exists.) -/
def rotL : Node V → Node V
  | node l i v hh m (node yl yi yv yh ym yr) =>
      update (node (update (node l i v hh m yl)) yi yv yh ym yr)
  | n => n

/-- JS `rotR(y)`: single right rotation. -/
def rotR : Node V → Node V
  | node (node xl xi xv xh xm xr) i v hh m r =>
      update (node xl xi xv xh xm (update (node xr i v hh m r)))
  | n => n

/-- JS `rebalance(n)`: restore the AVL balance after a single-level change. -/
def rebalance : Node V → Node V
  | nil => nil
  | n@(node l i v hh m r) =>
    let b := bf n
    if 1 < b then
      (if bf l < 0 then rotR (node (rotL l) i v hh m r) else rotR n)
    else if b < -1 then
      (if 0 < bf r then rotL (node l i v hh m (rotR r)) else rotL n)
    else n

/-- The recursive insertion `ins` inside `IntervalMap.set`.  Returns the new
subtree together with the flag "a fresh node was created" (the JS closure
increments `size` exactly in that case). -/
def ins (it : Interval) (val : V) : Node V → Node V × Bool
  | nil => (node nil it val 1 it.b nil, true)
  | node l i v hh m r =>
    let c := it.compareTo i
    if c < 0 then
      let p := ins it val l
      (rebalance (update (node p.1 i v hh m r)), p.2)
    else if 0 < c then
      let p := ins it val r
      (rebalance (update (node l i v hh m p.1)), p.2)
    else
      (node l i val hh m r, false)

/-- The `minNode` while-loop inside `delete`: follow left children starting
from the current candidate entry. -/
def minEntry : Node V → Interval × V → Interval × V
  | nil, d => d
  | node l i v _ _ _, _ => minEntry l (i, v)

/-- The nested `delMin` closure inside `delete`: remove the leftmost node of
a subtree (the in-order successor's original slot).  The JS compares node
identity with the saved successor `s`; the leftmost node is exactly the node
whose left child is absent, so the identity test becomes that pattern. -/
def delMin : Node V → Node V
  | nil => nil
  | node nil _ _ _ _ r => r
  | node (node ll li lv lh lm lr) i v hh m r =>
      rebalance (update (node (delMin (node ll li lv lh lm lr)) i v hh m r))

/-- The recursive `del` inside `IntervalMap.delete`.  Returns the new subtree
and the `removed` flag. -/
def del (it : Interval) : Node V → Node V × Bool
  | nil => (nil, false)
  | node l i v hh m r =>
    let c := it.compareTo i
    if c < 0 then
      let p := del it l
      (rebalance (update (node p.1 i v hh m r)), p.2)
    else if 0 < c then
      let p := del it r
      (rebalance (update (node l i v hh m p.1)), p.2)
    else
      match l, r with
      | nil, nil => (nil, true)
      | nil, node rl ri rv rh rm rr => (rebalance (update (node rl ri rv rh rm rr)), true)
      | node ll li lv lh lm lr, nil => (rebalance (update (node ll li lv lh lm lr)), true)
      | node ll li lv lh lm lr, node rl ri rv rh rm rr =>
        let s := minEntry rl (ri, rv)
        (rebalance (update (node (node ll li lv lh lm lr) s.1 s.2 hh m
          (delMin (node rl ri rv rh rm rr)))), true)

/-- The exact-lookup loop of `IntervalMap.get`: manual `(a, then b)` descent. -/
def find (it : Interval) : Node V → Option V
  | nil => none
  | node l i v _ _ r =>
    if it.a < i.a then find it l
    else if i.a < it.a then find it r
    else if it.b = i.b then some v
    else if it.b < i.b then find it l
    else find it r

/-- The single-path loop of `IntervalMap.hasOverlap`: test the node; descend
left iff a left child exists with cached max `>= qa`, else descend right. -/
def hasO (qa qb : Int) : Node V → Bool
  | nil => false
  | node l i _ _ _ r =>
    if i.a ≤ qb ∧ qa ≤ i.b then true
    else
      match l with
      | node ll li lv lh lm lr =>
          if qa ≤ lm then hasO qa qb (node ll li lv lh lm lr) else hasO qa qb r
      | nil => hasO qa qb r

/-- `true` iff the node is present and its cached subtree max is `>= x`
(the JS guard `n.l && n.l.m >= x`). -/
def maxGe (x : Int) : Node V → Bool
  | nil => false
  | node _ _ _ _ m _ => x ≤ m

/-- JS truthiness of a node reference. -/
def isNode : Node V → Bool
  | nil => false
  | node _ _ _ _ _ _ => true

/-- The recursive `dfs` inside `IntervalMap.getOverlapping`. -/
def dfsOverlap (qa qb : Int) : Node V → List (Interval × V)
  | nil => []
  | node l i v _ _ r =>
    (if maxGe qa l then dfsOverlap qa qb l else [])
      ++ (if i.a ≤ qb ∧ qa ≤ i.b then [(i, v)] else [])
      ++ (if isNode r ∧ i.a ≤ qb then dfsOverlap qa qb r else [])

/-- The fast-path loop of `getAt` (`getAll = false`): ternary BST descent. -/
def getAtFast (x : Int) : Node V → Option V
  | nil => none
  | node l i v _ _ r =>
    if x < i.a then getAtFast x l
    else if i.b < x then getAtFast x r
    else some v

/-- The `getAll = true` branch of `getAt`: pruned DFS collecting every entry
whose interval contains the point. -/
def getAtAll (x : Int) : Node V → List (Interval × V)
  | nil => []
  | node l i v _ _ r =>
    (if maxGe x l then getAtAll x l else [])
      ++ (if i.a ≤ x ∧ x ≤ i.b then [(i, v)] else [])
      ++ (if isNode r ∧ i.a ≤ x then getAtAll x r else [])

/-- `cpy` inside `IntervalMap.clone`: deep node copy, caches copied over. -/
def cloneNode : Node V → Node V
  | nil => nil
  | node l i v hh m r => node (cloneNode l) ⟨i.a, i.b⟩ v hh m (cloneNode r)

/-- In-order entry list: the semantics of the iterative `forEach`/`toArray`. -/
def inorder : Node V → List (Interval × V)
  | nil => []
  | node l i v _ _ r => inorder l ++ (i, v) :: inorder r

/-- Number of nodes in a subtree. -/
def nodeCount : Node V → Nat
  | nil => 0
  | node l _ _ _ _ r => nodeCount l + nodeCount r + 1

end Node

/-- The map object: a root reference and a size counter. -/
structure IntervalMap (V : Type) where
  root : Node V
  size : Nat
  deriving DecidableEq

namespace IntervalMap

variable {V : Type}

/-- `new IntervalMap()`. -/
def empty : IntervalMap V := ⟨Node.nil, 0⟩

/-- `IntervalMap.prototype.set`. -/
def set (m : IntervalMap V) (it : Interval) (val : V) : IntervalMap V :=
  let p := Node.ins it val m.root
  ⟨p.1, if p.2 then m.size + 1 else m.size⟩

/-- `IntervalMap.prototype.get`. -/
def get (m : IntervalMap V) (it : Interval) : Option V :=
  Node.find it m.root

/-- `IntervalMap.prototype.delete`: the updated map and the returned flag. -/
def del (m : IntervalMap V) (it : Interval) : IntervalMap V × Bool :=
  let p := Node.del it m.root
  (⟨p.1, if p.2 then m.size - 1 else m.size⟩, p.2)

/-- `IntervalMap.prototype.hasOverlap`. -/
def hasOverlap (m : IntervalMap V) (q : Interval) : Bool :=
  Node.hasO q.a q.b m.root

/-- `IntervalMap.prototype.getOverlapping`. -/
def getOverlapping (m : IntervalMap V) (q : Interval) : List (Interval × V) :=
  Node.dfsOverlap q.a q.b m.root

/-- `IntervalMap.prototype.getAt` with `getAll = false`. -/
def getAt (m : IntervalMap V) (x : Int) : Option V :=
  Node.getAtFast x m.root

/-- `IntervalMap.prototype.getAt` with `getAll = true`. -/
def getAtList (m : IntervalMap V) (x : Int) : List (Interval × V) :=
  Node.getAtAll x m.root

/-- `IntervalMap.prototype.clear`. -/
def clear (_m : IntervalMap V) : IntervalMap V := ⟨Node.nil, 0⟩

/-- `IntervalMap.prototype.clone`. -/
def clone (m : IntervalMap V) : IntervalMap V := ⟨Node.cloneNode m.root, m.size⟩

/-- `IntervalMap.prototype.toArray` (via `forEach`): ascending entry list. -/
def toArray (m : IntervalMap V) : List (Interval × V) := Node.inorder m.root

end IntervalMap

section FromArray

variable {V : Type} [LinearOrder V]

/-- The comparator passed to `arr.sort` in `fromArray`: by `a`, then `b`,
then (only when `mergeSame`) by value order. -/
def cmpPair (mergeSame : Bool) (x y : Interval × V) : Int :=
  if x.1.a ≠ y.1.a then x.1.a - y.1.a
  else if x.1.b ≠ y.1.b then x.1.b - y.1.b
  else if mergeSame then (if x.2 < y.2 then -1 else if y.2 < x.2 then 1 else 0)
  else 0

/-- Stable insertion step: place `x` after every element that compares `<= 0`
against it.  Together with `sortPairs` this models the engine's stable
`Array.prototype.sort` under the `cmpPair` comparator. -/
def insSorted (mergeSame : Bool) (x : Interval × V) : List (Interval × V) → List (Interval × V)
  | [] => [x]
  | y :: ys => if cmpPair mergeSame y x ≤ 0 then y :: insSorted mergeSame x ys else x :: y :: ys

/-- Stable sort by `cmpPair` (model of `arr.sort(...)` in `fromArray`). -/
def sortPairs (mergeSame : Bool) (ps : List (Interval × V)) : List (Interval × V) :=
  ps.foldl (fun acc x => insSorted mergeSame x acc) []

/-- The merging sweep of `fromArray` (`mergeSame` branch), written with the
current retained entry as an accumulator: merge the next entry into it when
the values are equal and its start does not exceed the retained end,
extending the retained end to the max of the two ends. -/
def sweep (cur : Interval × V) : List (Interval × V) → List (Interval × V)
  | [] => [cur]
  | e :: es =>
    if cur.2 = e.2 ∧ e.1.a ≤ cur.1.b then
      sweep (⟨cur.1.a, max cur.1.b e.1.b⟩, cur.2) es
    else
      cur :: sweep e es

/-- The whole `merged` loop of `fromArray`. -/
def mergeSweep : List (Interval × V) → List (Interval × V)
  | [] => []
  | e :: es => sweep e es

/-- The recursive-midpoint `build(lo, hi)` of `fromArray`, phrased on the
list segment it covers: `mid - lo = (hi - lo) >> 1 = (length - 1) / 2`. -/
def buildList : List (Interval × V) → Node V
  | [] => Node.nil
  | x :: xs =>
    let l := buildList ((x :: xs).take (xs.length / 2))
    let r := buildList ((x :: xs).drop (xs.length / 2 + 1))
    let e := (x :: xs).getD (xs.length / 2) x
    Node.node l e.1 e.2 (max (Node.height l) (Node.height r) + 1)
      (Node.mWith r (Node.mWith l e.1.b)) r
termination_by ps => ps.length
decreasing_by
  · simp only [List.length_take, List.length_cons]
    omega
  · simp only [List.length_drop, List.length_cons]
    omega

end FromArray

namespace IntervalMap

variable {V : Type} [LinearOrder V]

/-- `IntervalMap.fromArray(pairs, mergeSame)`.  The `pairs` argument is
optional in JS (`!pairs` guard), modelled with `Option`. -/
def fromArray (pairs : Option (List (Interval × V))) (mergeSame : Bool) : IntervalMap V :=
  match pairs with
  | none => ⟨Node.nil, 0⟩
  | some ps =>
    if ps.length = 0 then ⟨Node.nil, 0⟩
    else
      let arr := sortPairs mergeSame ps
      let arr := if mergeSame then mergeSweep arr else arr
      ⟨IntervalMapVerif.buildList arr, arr.length⟩

end IntervalMap

/-! ## The data-model invariants -/

namespace Node

variable {V : Type}

/-- Recursively recomputed height (ignores the caches). -/
def realHeight : Node V → Nat
  | nil => 0
  | node l _ _ _ _ r => max (realHeight l) (realHeight r) + 1

/-- `p` holds for every interval key in the subtree. -/
def AllKeys (p : Interval → Prop) : Node V → Prop
  | nil => True
  | node l i _ _ _ r => p i ∧ AllKeys p l ∧ AllKeys p r

/-- Invariant 1: BST order under lexicographic `(a, b)`. -/
def Ordered : Node V → Prop
  | nil => True
  | node l i _ _ _ r =>
      AllKeys (fun j => j.ltI i) l ∧ AllKeys (fun j => i.ltI j) r ∧ Ordered l ∧ Ordered r

/-- Invariant 2: AVL height balance at every node. -/
def BalancedN : Node V → Prop
  | nil => True
  | node l _ _ _ _ r =>
      (realHeight l ≤ realHeight r + 1 ∧ realHeight r ≤ realHeight l + 1) ∧
        BalancedN l ∧ BalancedN r

/-- Invariant 3a: every cached height matches its recursive definition. -/
def HeightsOk : Node V → Prop
  | nil => True
  | node l _ _ hh _ r => hh = max (height l) (height r) + 1 ∧ HeightsOk l ∧ HeightsOk r

/-- Invariant 3b: every cached subtree max matches its recursive definition
(max of the node's own `b` and the children's subtree maxes). -/
def MaxOk : Node V → Prop
  | nil => True
  | node l i _ _ m r => m = mWith r (mWith l i.b) ∧ MaxOk l ∧ MaxOk r

/-- All four structural invariants of a subtree. -/
def InvN (n : Node V) : Prop := Ordered n ∧ BalancedN n ∧ HeightsOk n ∧ MaxOk n

instance decAllKeys (p : Interval → Prop) [DecidablePred p] :
    (n : Node V) → Decidable (AllKeys p n)
  | nil => isTrue trivial
  | node l i _ _ _ r =>
    haveI := decAllKeys p l
    haveI := decAllKeys p r
    inferInstanceAs (Decidable (p i ∧ AllKeys p l ∧ AllKeys p r))

instance decOrdered : (n : Node V) → Decidable (Ordered n)
  | nil => isTrue trivial
  | node l i _ _ _ r =>
    haveI := decOrdered l
    haveI := decOrdered r
    inferInstanceAs (Decidable (_ ∧ _ ∧ Ordered l ∧ Ordered r))

instance decBalancedN : (n : Node V) → Decidable (BalancedN n)
  | nil => isTrue trivial
  | node l _ _ _ _ r =>
    haveI := decBalancedN l
    haveI := decBalancedN r
    inferInstanceAs (Decidable (_ ∧ BalancedN l ∧ BalancedN r))

instance decHeightsOk : (n : Node V) → Decidable (HeightsOk n)
  | nil => isTrue trivial
  | node l _ _ _ _ r =>
    haveI := decHeightsOk l
    haveI := decHeightsOk r
    inferInstanceAs (Decidable (_ ∧ HeightsOk l ∧ HeightsOk r))

instance decMaxOk : (n : Node V) → Decidable (MaxOk n)
  | nil => isTrue trivial
  | node l _ _ _ _ r =>
    haveI := decMaxOk l
    haveI := decMaxOk r
    inferInstanceAs (Decidable (_ ∧ MaxOk l ∧ MaxOk r))

instance (n : Node V) : Decidable (InvN n) := inferInstanceAs (Decidable (_ ∧ _ ∧ _ ∧ _))

end Node

/-- The full data-model invariant of a map: the four tree invariants plus
`size` = number of nodes. -/
def IntervalMap.Inv {V : Type} (m : IntervalMap V) : Prop :=
  Node.InvN m.root ∧ m.size = Node.nodeCount m.root

instance {V : Type} (m : IntervalMap V) : Decidable m.Inv :=
  inferInstanceAs (Decidable (_ ∧ _))

/-! ## Basic lemmas about the order and the primitive operations -/

namespace Interval

theorem ltI_iff {x y : Interval} : x.ltI y ↔ x.a < y.a ∨ (x.a = y.a ∧ x.b < y.b) := Iff.rfl

theorem ltI_trans {x y z : Interval} (h1 : x.ltI y) (h2 : y.ltI z) : x.ltI z := by
  simp only [ltI_iff] at *
  omega

theorem ltI_irrefl (x : Interval) : ¬ x.ltI x := by
  simp only [ltI_iff]
  omega

theorem eq_iff {x y : Interval} : x = y ↔ x.a = y.a ∧ x.b = y.b := by
  cases x
  cases y
  simp [mk.injEq]

theorem compareTo_neg_iff {x y : Interval} : x.compareTo y < 0 ↔ x.ltI y := by
  simp only [compareTo, ltI_iff]
  split_ifs <;>
    first
      | omega
      | (simp only [false_iff, true_iff, iff_false, iff_true]; omega)

theorem compareTo_pos_iff {x y : Interval} : 0 < x.compareTo y ↔ y.ltI x := by
  simp only [compareTo, ltI_iff]
  split_ifs <;>
    first
      | omega
      | (simp only [false_iff, true_iff, iff_false, iff_true]; omega)

theorem compareTo_zero_iff {x y : Interval} : x.compareTo y = 0 ↔ x = y := by
  rw [eq_iff]
  simp only [compareTo]
  split_ifs <;>
    first
      | omega
      | (simp only [false_iff, true_iff, iff_false, iff_true]; omega)

end Interval

namespace Node

variable {V : Type}

@[simp] theorem height_nil : (nil : Node V).height = 0 := rfl

@[simp] theorem height_node (l : Node V) (i v hh m r) :
    (node l i v hh m r).height = hh := rfl

@[simp] theorem mWith_nil (d : Int) : (nil : Node V).mWith d = d := rfl

@[simp] theorem mWith_node (l : Node V) (i v hh m r d) :
    (node l i v hh m r).mWith d = max d m := rfl

@[simp] theorem update_nil : (nil : Node V).update = nil := rfl

@[simp] theorem update_node (l : Node V) (i v hh m r) :
    (node l i v hh m r).update =
      node l i v (max l.height r.height + 1) (r.mWith (l.mWith i.b)) r := rfl

@[simp] theorem bf_node (l : Node V) (i v hh m r) :
    (node l i v hh m r).bf = (l.height : Int) - (r.height : Int) := rfl

@[simp] theorem inorder_nil : (nil : Node V).inorder = [] := rfl

@[simp] theorem inorder_node (l : Node V) (i v hh m r) :
    (node l i v hh m r).inorder = l.inorder ++ (i, v) :: r.inorder := rfl

@[simp] theorem nodeCount_nil : (nil : Node V).nodeCount = 0 := rfl

@[simp] theorem nodeCount_node (l : Node V) (i v hh m r) :
    (node l i v hh m r).nodeCount = l.nodeCount + r.nodeCount + 1 := rfl

@[simp] theorem realHeight_nil : (nil : Node V).realHeight = 0 := rfl

@[simp] theorem realHeight_node (l : Node V) (i v hh m r) :
    (node l i v hh m r).realHeight = max l.realHeight r.realHeight + 1 := rfl

@[simp] theorem isNode_nil : (nil : Node V).isNode = false := rfl

@[simp] theorem isNode_node (l : Node V) (i v hh m r) :
    (node l i v hh m r).isNode = true := rfl

@[simp] theorem maxGe_nil (x : Int) : (nil : Node V).maxGe x = false := rfl

@[simp] theorem maxGe_node (x : Int) (l : Node V) (i v hh m r) :
    (node l i v hh m r).maxGe x = decide (x ≤ m) := rfl

@[simp] theorem allKeys_nil (p : Interval → Prop) : AllKeys p (nil : Node V) := trivial

@[simp] theorem allKeys_node (p : Interval → Prop) (l : Node V) (i v hh m r) :
    AllKeys p (node l i v hh m r) ↔ p i ∧ AllKeys p l ∧ AllKeys p r := Iff.rfl

@[simp] theorem ordered_nil : Ordered (nil : Node V) := trivial

@[simp] theorem ordered_node (l : Node V) (i v hh m r) :
    Ordered (node l i v hh m r) ↔
      AllKeys (fun j => j.ltI i) l ∧ AllKeys (fun j => i.ltI j) r ∧ Ordered l ∧ Ordered r :=
  Iff.rfl

@[simp] theorem balancedN_nil : BalancedN (nil : Node V) := trivial

@[simp] theorem balancedN_node (l : Node V) (i v hh m r) :
    BalancedN (node l i v hh m r) ↔
      (l.realHeight ≤ r.realHeight + 1 ∧ r.realHeight ≤ l.realHeight + 1) ∧
        BalancedN l ∧ BalancedN r :=
  Iff.rfl

@[simp] theorem heightsOk_nil : HeightsOk (nil : Node V) := trivial

@[simp] theorem heightsOk_node (l : Node V) (i v hh m r) :
    HeightsOk (node l i v hh m r) ↔
      hh = max l.height r.height + 1 ∧ HeightsOk l ∧ HeightsOk r :=
  Iff.rfl

@[simp] theorem maxOk_nil : MaxOk (nil : Node V) := trivial

@[simp] theorem maxOk_node (l : Node V) (i v hh m r) :
    MaxOk (node l i v hh m r) ↔ m = r.mWith (l.mWith i.b) ∧ MaxOk l ∧ MaxOk r :=
  Iff.rfl

/-- Under invariant 3a the cache agrees with the recursive height. -/
theorem height_eq_real {n : Node V} (h : HeightsOk n) : n.height = n.realHeight := by
  induction n with
  | nil => rfl
  | node l i v hh m r ihl ihr =>
    obtain ⟨h1, h2, h3⟩ := h
    simp [h1, ihl h2, ihr h3]

/-- Membership formulation of `AllKeys`. -/
theorem allKeys_iff_forall {p : Interval → Prop} {n : Node V} :
    AllKeys p n ↔ ∀ e ∈ n.inorder, p e.1 := by
  induction n with
  | nil => simp
  | node l i v hh m r ihl ihr =>
    simp only [allKeys_node, inorder_node, List.mem_append, List.mem_cons, ihl, ihr]
    constructor
    · rintro ⟨hi, hl, hr⟩ e (he | rfl | he)
      · exact hl e he
      · exact hi
      · exact hr e he
    · intro h
      exact ⟨h (i, v) (Or.inr (Or.inl rfl)), fun e he => h e (Or.inl he),
        fun e he => h e (Or.inr (Or.inr he))⟩

/-- BST order is equivalent to the in-order entry list being strictly
increasing under lexicographic key order. -/
theorem ordered_iff_pairwise {n : Node V} :
    Ordered n ↔ n.inorder.Pairwise (fun e f => e.1.ltI f.1) := by
  induction n with
  | nil => simp
  | node l i v hh m r ihl ihr =>
    simp only [ordered_node, inorder_node, List.pairwise_append, List.pairwise_cons,
      allKeys_iff_forall, ihl, ihr, List.mem_cons]
    constructor
    · rintro ⟨hl, hr, pl, pr⟩
      refine ⟨pl, ⟨fun f hf => hr f hf, pr⟩, ?_⟩
      rintro e he f (rfl | hf)
      · exact hl e he
      · exact Interval.ltI_trans (hl e he) (hr f hf)
    · rintro ⟨pl, ⟨hir, pr⟩, cross⟩
      exact ⟨fun e he => cross e he (i, v) (Or.inl rfl), hir, pl, pr⟩

/-! ## Rotations preserve contents; `rebalance ∘ update` restores the invariants -/

theorem inorder_update (n : Node V) : n.update.inorder = n.inorder := by
  cases n <;> simp

theorem inorder_rotL (n : Node V) : n.rotL.inorder = n.inorder := by
  cases n with
  | nil => rfl
  | node l i v hh m r =>
    cases r with
    | nil => rfl
    | node rl ri rv rh rm rr => simp [rotL, List.append_assoc]

theorem inorder_rotR (n : Node V) : n.rotR.inorder = n.inorder := by
  cases n with
  | nil => rfl
  | node l i v hh m r =>
    cases l with
    | nil => rfl
    | node ll li lv lh lm lr => simp [rotR, List.append_assoc]

theorem inorder_rebalance (n : Node V) : n.rebalance.inorder = n.inorder := by
  cases n with
  | nil => rfl
  | node l i v hh m r =>
    simp only [rebalance]
    split_ifs <;> simp [inorder_rotL, inorder_rotR, List.append_assoc]

theorem length_inorder (n : Node V) : n.inorder.length = n.nodeCount := by
  induction n with
  | nil => rfl
  | node l i v hh m r ihl ihr => simp [ihl, ihr]; omega

theorem rebalance_eq_self {n : Node V} (h1 : -1 ≤ n.bf) (h2 : n.bf ≤ 1) : n.rebalance = n := by
  cases n with
  | nil => rfl
  | node l i v hh m r =>
    simp only [bf_node] at h1 h2
    simp only [rebalance, bf_node]
    split_ifs with c1 c2 c3 c4 <;> first | rfl | (exfalso; omega)

/-- The workhorse: rebuilding a node with `update` then `rebalance`, from
children that satisfy the invariants and whose heights differ by at most 2,
yields a tree satisfying the invariants, with the expected contents and with
height within the expected window. -/
theorem rebalance_update_spec {l r : Node V} (i : Interval) (v : V) (hh : Nat) (mm : Int)
    (hkl : HeightsOk l) (hkr : HeightsOk r) (mkl : MaxOk l) (mkr : MaxOk r)
    (bal : BalancedN l) (bar : BalancedN r)
    (hd1 : l.realHeight ≤ r.realHeight + 2) (hd2 : r.realHeight ≤ l.realHeight + 2) :
    HeightsOk (rebalance (update (node l i v hh mm r))) ∧
      MaxOk (rebalance (update (node l i v hh mm r))) ∧
      BalancedN (rebalance (update (node l i v hh mm r))) ∧
      (rebalance (update (node l i v hh mm r))).inorder = l.inorder ++ (i, v) :: r.inorder ∧
      max l.realHeight r.realHeight ≤ (rebalance (update (node l i v hh mm r))).realHeight ∧
      (rebalance (update (node l i v hh mm r))).realHeight ≤ max l.realHeight r.realHeight + 1 ∧
      (l.realHeight ≤ r.realHeight + 1 → r.realHeight ≤ l.realHeight + 1 →
        (rebalance (update (node l i v hh mm r))).realHeight =
          max l.realHeight r.realHeight + 1) := by
  have el : l.height = l.realHeight := height_eq_real hkl
  have er : r.height = r.realHeight := height_eq_real hkr
  simp only [update_node, rebalance, bf_node, height_node]
  split_ifs with c1 c2 c3 c4
  · -- left-heavy, left child right-heavy: double rotation
    cases l with
    | nil => exfalso; simp only [height_nil] at el c1; omega
    | node ll li lv lh lm lr =>
      obtain ⟨lhEq, hkll, hklr⟩ := hkl
      obtain ⟨lmEq, mkll, mklr⟩ := mkl
      obtain ⟨⟨lb1, lb2⟩, ball, balr⟩ := bal
      simp only [bf_node] at c2
      cases lr with
      | nil =>
        exfalso
        simp only [height_nil] at c2
        omega
      | node lrl lri lrv lrh lrm lrr =>
        obtain ⟨lrhEq, hklrl, hklrr⟩ := hklr
        obtain ⟨lrmEq, mklrl, mklrr⟩ := mklr
        obtain ⟨⟨lrb1, lrb2⟩, balrl, balrr⟩ := balr
        have e1 : ll.height = ll.realHeight := height_eq_real hkll
        have e2 : lrl.height = lrl.realHeight := height_eq_real hklrl
        have e3 : lrr.height = lrr.realHeight := height_eq_real hklrr
        simp only [height_node, realHeight_node] at el c1 c2 lhEq lrhEq hd1 hd2 lb1 lb2 lrb1 lrb2
        simp only [rotL, rotR, update_node, height_node]
        refine ⟨?_, ?_, ?_, ?_, ?_, ?_, ?_⟩
        · simp [hkll, hklrl, hklrr, hkr]
        · simp [mkll, mklrl, mklrr, mkr]
        · simp only [balancedN_node, realHeight_node]
          refine ⟨⟨?_, ?_⟩, ⟨⟨?_, ?_⟩, ball, balrl⟩, ⟨⟨?_, ?_⟩, balrr, bar⟩⟩ <;> omega
        · simp [List.append_assoc]
        · simp only [realHeight_node]
          omega
        · simp only [realHeight_node]
          omega
        · simp only [realHeight_node]
          omega
  · -- left-heavy, left child not right-heavy: single right rotation
    cases l with
    | nil => exfalso; simp only [height_nil] at el c1; omega
    | node ll li lv lh lm lr =>
      obtain ⟨lhEq, hkll, hklr⟩ := hkl
      obtain ⟨lmEq, mkll, mklr⟩ := mkl
      obtain ⟨⟨lb1, lb2⟩, ball, balr⟩ := bal
      simp only [bf_node] at c2
      have e1 : ll.height = ll.realHeight := height_eq_real hkll
      have e2 : lr.height = lr.realHeight := height_eq_real hklr
      simp only [height_node, realHeight_node] at el c1 c2 lhEq hd1 hd2 lb1 lb2
      simp only [rotR, update_node, height_node]
      refine ⟨?_, ?_, ?_, ?_, ?_, ?_, ?_⟩
      · simp [hkll, hklr, hkr]
      · simp [mkll, mklr, mkr]
      · simp only [balancedN_node, realHeight_node]
        refine ⟨⟨?_, ?_⟩, ball, ⟨⟨?_, ?_⟩, balr, bar⟩⟩ <;> omega
      · simp [List.append_assoc]
      · simp only [realHeight_node]
        omega
      · simp only [realHeight_node]
        omega
      · simp only [realHeight_node]
        omega
  · -- right-heavy, right child left-heavy: double rotation
    cases r with
    | nil => exfalso; simp only [height_nil] at er c3; omega
    | node rl ri rv rh rm rr =>
      obtain ⟨rhEq, hkrl, hkrr⟩ := hkr
      obtain ⟨rmEq, mkrl, mkrr⟩ := mkr
      obtain ⟨⟨rb1, rb2⟩, barl, barr⟩ := bar
      simp only [bf_node] at c4
      cases rl with
      | nil =>
        exfalso
        simp only [height_nil] at c4
        omega
      | node rll rli rlv rlh rlm rlr =>
        obtain ⟨rlhEq, hkrll, hkrlr⟩ := hkrl
        obtain ⟨rlmEq, mkrll, mkrlr⟩ := mkrl
        obtain ⟨⟨rlb1, rlb2⟩, barll, barlr⟩ := barl
        have e1 : rr.height = rr.realHeight := height_eq_real hkrr
        have e2 : rll.height = rll.realHeight := height_eq_real hkrll
        have e3 : rlr.height = rlr.realHeight := height_eq_real hkrlr
        simp only [height_node, realHeight_node] at er c3 c4 rhEq rlhEq hd1 hd2 rb1 rb2 rlb1 rlb2
        simp only [rotL, rotR, update_node, height_node]
        refine ⟨?_, ?_, ?_, ?_, ?_, ?_, ?_⟩
        · simp [hkl, hkrll, hkrlr, hkrr]
        · simp [mkl, mkrll, mkrlr, mkrr]
        · simp only [balancedN_node, realHeight_node]
          refine ⟨⟨?_, ?_⟩, ⟨⟨?_, ?_⟩, bal, barll⟩, ⟨⟨?_, ?_⟩, barlr, barr⟩⟩ <;> omega
        · simp [List.append_assoc]
        · simp only [realHeight_node]
          omega
        · simp only [realHeight_node]
          omega
        · simp only [realHeight_node]
          omega
  · -- right-heavy, right child not left-heavy: single left rotation
    cases r with
    | nil => exfalso; simp only [height_nil] at er c3; omega
    | node rl ri rv rh rm rr =>
      obtain ⟨rhEq, hkrl, hkrr⟩ := hkr
      obtain ⟨rmEq, mkrl, mkrr⟩ := mkr
      obtain ⟨⟨rb1, rb2⟩, barl, barr⟩ := bar
      simp only [bf_node] at c4
      have e1 : rl.height = rl.realHeight := height_eq_real hkrl
      have e2 : rr.height = rr.realHeight := height_eq_real hkrr
      simp only [height_node, realHeight_node] at er c3 c4 rhEq hd1 hd2 rb1 rb2
      simp only [rotL, update_node, height_node]
      refine ⟨?_, ?_, ?_, ?_, ?_, ?_, ?_⟩
      · simp [hkl, hkrl, hkrr]
      · simp [mkl, mkrl, mkrr]
      · simp only [balancedN_node, realHeight_node]
        refine ⟨⟨?_, ?_⟩, ⟨⟨?_, ?_⟩, bal, barl⟩, barr⟩ <;> omega
      · simp [List.append_assoc]
      · simp only [realHeight_node]
        omega
      · simp only [realHeight_node]
        omega
      · simp only [realHeight_node]
        omega
  · -- already balanced: no rotation
    refine ⟨⟨rfl, hkl, hkr⟩, ⟨rfl, mkl, mkr⟩, ?_, by simp, ?_, ?_, ?_⟩
    · simp only [balancedN_node]
      exact ⟨⟨by omega, by omega⟩, bal, bar⟩
    · simp only [realHeight_node]
      omega
    · simp only [realHeight_node]
      omega
    · simp only [realHeight_node]
      exact fun _ _ => trivial

/-! ## Insertion -/

theorem ltI_ne {x y : Interval} (h : x.ltI y) : x ≠ y := by
  rintro rfl
  exact Interval.ltI_irrefl x h

theorem ltI_asymm {x y : Interval} (h : x.ltI y) : ¬ y.ltI x := by
  simp only [Interval.ltI_iff] at *
  omega

/-- With the BST bounds, a key smaller than the root can only live in the
left subtree. -/
theorem mem_left_iff {l r : Node V} {i : Interval} {v : V} {hh : Nat} {m : Int} {it : Interval}
    (akr : AllKeys (fun j => i.ltI j) r) (hlt : it.ltI i) :
    (∃ w, (it, w) ∈ (node l i v hh m r).inorder) ↔ ∃ w, (it, w) ∈ l.inorder := by
  rw [allKeys_iff_forall] at akr
  simp only [inorder_node, List.mem_append, List.mem_cons]
  constructor
  · rintro ⟨w, hw | hw | hw⟩
    · exact ⟨w, hw⟩
    · obtain ⟨h1, h2⟩ := Prod.mk.injEq .. ▸ hw
      exact absurd (h1 ▸ hlt) (Interval.ltI_irrefl i)
    · exact absurd hlt (ltI_asymm (akr _ hw))
  · rintro ⟨w, hw⟩
    exact ⟨w, Or.inl hw⟩

theorem mem_right_iff {l r : Node V} {i : Interval} {v : V} {hh : Nat} {m : Int} {it : Interval}
    (akl : AllKeys (fun j => j.ltI i) l) (hlt : i.ltI it) :
    (∃ w, (it, w) ∈ (node l i v hh m r).inorder) ↔ ∃ w, (it, w) ∈ r.inorder := by
  rw [allKeys_iff_forall] at akl
  simp only [inorder_node, List.mem_append, List.mem_cons]
  constructor
  · rintro ⟨w, hw | hw | hw⟩
    · exact absurd hlt (ltI_asymm (akl _ hw))
    · obtain ⟨h1, h2⟩ := Prod.mk.injEq .. ▸ hw
      exact absurd (h1 ▸ hlt) (Interval.ltI_irrefl i)
    · exact ⟨w, hw⟩
  · rintro ⟨w, hw⟩
    exact ⟨w, Or.inr (Or.inr hw)⟩

/-- Full specification of the recursive insertion: it preserves the four
invariants, grows the height by at most one, creates exactly one node when
(and only when) the key was absent, and respects key bounds. -/
theorem ins_spec (it : Interval) (val : V) {n : Node V} (hn : InvN n) :
    InvN (ins it val n).1 ∧
      n.realHeight ≤ (ins it val n).1.realHeight ∧
      (ins it val n).1.realHeight ≤ n.realHeight + 1 ∧
      (ins it val n).1.nodeCount = n.nodeCount + (if (ins it val n).2 then 1 else 0) ∧
      ((ins it val n).2 = false ↔ ∃ w, (it, w) ∈ n.inorder) ∧
      (∀ p : Interval → Prop, p it → AllKeys p n → AllKeys p (ins it val n).1) := by
  induction n with
  | nil =>
    refine ⟨⟨by simp [ins], by simp [ins], by simp [ins], by simp [ins]⟩, by simp [ins],
      by simp [ins], by simp [ins], by simp [ins], ?_⟩
    intro p hp _
    simp only [ins]
    exact ⟨hp, trivial, trivial⟩
  | node l i v hh m r ihl ihr =>
    obtain ⟨ho, hb, hk, mk⟩ := hn
    obtain ⟨akl, akr, hol, hor⟩ := ho
    obtain ⟨⟨hb1, hb2⟩, hbl, hbr⟩ := hb
    obtain ⟨hkk, hkl, hkr⟩ := hk
    obtain ⟨mkk, mkl, mkr⟩ := mk
    rcases lt_trichotomy (it.compareTo i) 0 with hc | hc | hc
    · -- descend left
      have hlt : it.ltI i := Interval.compareTo_neg_iff.mp hc
      have h1 : (ins it val (node l i v hh m r)).1 =
          rebalance (update (node (ins it val l).1 i v hh m r)) := by
        simp only [ins]
        rw [if_pos hc]
      have h2 : (ins it val (node l i v hh m r)).2 = (ins it val l).2 := by
        simp only [ins]
        rw [if_pos hc]
      obtain ⟨⟨o1, b1, k1, m1⟩, ih2, ih3, ih4, ih5, ihak⟩ := ihl ⟨hol, hbl, hkl, mkl⟩
      obtain ⟨sk, sm, sb, sino, slo, shi, seq⟩ :=
        rebalance_update_spec (l := (ins it val l).1) (r := r) i v hh m
          k1 hkr m1 mkr b1 hbr (by omega) (by omega)
      have akL : AllKeys (fun j => j.ltI i) (ins it val l).1 := ihak _ hlt akl
      have cnt : (rebalance (update (node (ins it val l).1 i v hh m r))).nodeCount =
          (ins it val l).1.nodeCount + r.nodeCount + 1 := by
        rw [← length_inorder, sino]
        simp [length_inorder]
        omega
      rw [h1, h2]
      refine ⟨⟨?_, sb, sk, sm⟩, ?_, ?_, ?_, ?_, ?_⟩
      · rw [ordered_iff_pairwise, sino, List.pairwise_append]
        rw [allKeys_iff_forall] at akL akr
        refine ⟨ordered_iff_pairwise.mp o1, ?_, ?_⟩
        · exact List.pairwise_cons.mpr ⟨fun f hf => akr f hf, ordered_iff_pairwise.mp hor⟩
        · rintro e he f hf
          rcases List.mem_cons.mp hf with rfl | hf
          · exact akL e he
          · exact Interval.ltI_trans (akL e he) (akr f hf)
      · simp only [realHeight_node]
        omega
      · simp only [realHeight_node]
        omega
      · rw [cnt]
        simp only [nodeCount_node]
        cases hfl : (ins it val l).2 <;> simp [hfl] at ih4 ⊢ <;> omega
      · rw [ih5]
        exact (mem_left_iff akr hlt).symm
      · intro p hp hak
        obtain ⟨hpi, hpl, hpr⟩ := hak
        rw [allKeys_iff_forall]
        intro e he
        rw [sino] at he
        rcases List.mem_append.mp he with he | he
        · exact allKeys_iff_forall.mp (ihak p hp hpl) e he
        · rcases List.mem_cons.mp he with rfl | he
          · exact hpi
          · exact allKeys_iff_forall.mp hpr e he
    · -- equal key: overwrite in place
      have heq : it = i := Interval.compareTo_zero_iff.mp hc
      have h1 : (ins it val (node l i v hh m r)).1 = node l i val hh m r := by
        simp only [ins]
        rw [if_neg (by omega), if_neg (by omega)]
      have h2 : (ins it val (node l i v hh m r)).2 = false := by
        simp only [ins]
        rw [if_neg (by omega), if_neg (by omega)]
      rw [h1, h2]
      refine ⟨⟨?_, ?_, ?_, ?_⟩, ?_, ?_, ?_, ?_, ?_⟩
      · exact ⟨akl, akr, hol, hor⟩
      · exact ⟨⟨hb1, hb2⟩, hbl, hbr⟩
      · exact ⟨hkk, hkl, hkr⟩
      · exact ⟨mkk, mkl, mkr⟩
      · simp
      · simp
      · simp
      · simp only [true_iff]
        exact ⟨v, by simp [heq]⟩
      · intro p hp hak
        obtain ⟨hpi, hpl, hpr⟩ := hak
        exact ⟨hpi, hpl, hpr⟩
    · -- descend right
      have hlt : i.ltI it := Interval.compareTo_pos_iff.mp hc
      have h1 : (ins it val (node l i v hh m r)).1 =
          rebalance (update (node l i v hh m (ins it val r).1)) := by
        simp only [ins]
        rw [if_neg (by omega), if_pos hc]
      have h2 : (ins it val (node l i v hh m r)).2 = (ins it val r).2 := by
        simp only [ins]
        rw [if_neg (by omega), if_pos hc]
      obtain ⟨⟨o1, b1, k1, m1⟩, ih2, ih3, ih4, ih5, ihak⟩ := ihr ⟨hor, hbr, hkr, mkr⟩
      obtain ⟨sk, sm, sb, sino, slo, shi, seq⟩ :=
        rebalance_update_spec (l := l) (r := (ins it val r).1) i v hh m
          hkl k1 mkl m1 hbl b1 (by omega) (by omega)
      have akR : AllKeys (fun j => i.ltI j) (ins it val r).1 := ihak _ hlt akr
      have cnt : (rebalance (update (node l i v hh m (ins it val r).1))).nodeCount =
          l.nodeCount + (ins it val r).1.nodeCount + 1 := by
        rw [← length_inorder, sino]
        simp [length_inorder]
        omega
      rw [h1, h2]
      refine ⟨⟨?_, sb, sk, sm⟩, ?_, ?_, ?_, ?_, ?_⟩
      · rw [ordered_iff_pairwise, sino, List.pairwise_append]
        rw [allKeys_iff_forall] at akl akR
        refine ⟨ordered_iff_pairwise.mp hol, ?_, ?_⟩
        · exact List.pairwise_cons.mpr ⟨fun f hf => akR f hf, ordered_iff_pairwise.mp o1⟩
        · rintro e he f hf
          rcases List.mem_cons.mp hf with rfl | hf
          · exact akl e he
          · exact Interval.ltI_trans (akl e he) (akR f hf)
      · simp only [realHeight_node]
        omega
      · simp only [realHeight_node]
        omega
      · rw [cnt]
        simp only [nodeCount_node]
        cases hfl : (ins it val r).2 <;> simp [hfl] at ih4 ⊢ <;> omega
      · rw [ih5]
        exact (mem_right_iff akl hlt).symm
      · intro p hp hak
        obtain ⟨hpi, hpl, hpr⟩ := hak
        rw [allKeys_iff_forall]
        intro e he
        rw [sino] at he
        rcases List.mem_append.mp he with he | he
        · exact allKeys_iff_forall.mp hpl e he
        · rcases List.mem_cons.mp he with rfl | he
          · exact hpi
          · exact allKeys_iff_forall.mp (ihak p hp hpr) e he

/-! ## Deletion -/

theorem update_eq_self {n : Node V} (hk : HeightsOk n) (mk : MaxOk n) : n.update = n := by
  cases n with
  | nil => rfl
  | node l i v hh m r =>
    obtain ⟨e1, _, _⟩ := hk
    obtain ⟨e2, _, _⟩ := mk
    rw [update_node, ← e1, ← e2]

theorem rebalance_eq_self_of_inv {n : Node V} (hb : BalancedN n) (hk : HeightsOk n) :
    n.rebalance = n := by
  cases n with
  | nil => rfl
  | node l i v hh m r =>
    obtain ⟨⟨b1, b2⟩, _, _⟩ := hb
    obtain ⟨_, hkl, hkr⟩ := hk
    have e1 := height_eq_real hkl
    have e2 := height_eq_real hkr
    refine rebalance_eq_self ?_ ?_ <;> rw [bf_node] <;> omega

theorem minEntry_eq (n : Node V) (d : Interval × V) : minEntry n d = n.inorder.headD d := by
  induction n generalizing d with
  | nil => rfl
  | node l i v hh m r ihl ihr =>
    rw [minEntry, ihl]
    cases hl : l.inorder with
    | nil => simp [hl]
    | cons x xs => simp [hl]

/-- `delMin` removes exactly the in-order first entry, keeps the invariants
and lowers the height by at most one. -/
theorem delMin_spec : ∀ {n : Node V}, n ≠ nil → InvN n →
    InvN n.delMin ∧ n.delMin.realHeight ≤ n.realHeight ∧
      n.realHeight ≤ n.delMin.realHeight + 1 ∧ n.delMin.inorder = n.inorder.tail := by
  intro n
  induction n with
  | nil => exact fun h _ => absurd rfl h
  | node l i v hh m r ihl ihr =>
    intro _ hn
    obtain ⟨ho, hb, hk, mk⟩ := hn
    obtain ⟨akl, akr, hol, hor⟩ := ho
    obtain ⟨⟨b1, b2⟩, hbl, hbr⟩ := hb
    obtain ⟨hkk, hkl, hkr⟩ := hk
    obtain ⟨mkk, mkl, mkr⟩ := mk
    cases l with
    | nil =>
      refine ⟨⟨hor, hbr, hkr, mkr⟩, ?_, ?_, ?_⟩
      · simp only [delMin, realHeight_node, realHeight_nil]
        omega
      · simp only [delMin, realHeight_node, realHeight_nil]
        omega
      · simp only [delMin, inorder_node, inorder_nil, List.nil_append, List.tail_cons]
    | node ll li lv lh lm lr =>
      obtain ⟨⟨o1, db, k1, m1⟩, dlo, dhi, dino⟩ :=
        ihl (fun h => by cases h) ⟨hol, hbl, hkl, mkl⟩
      have h1 : (node (node ll li lv lh lm lr) i v hh m r).delMin =
          rebalance (update (node ((node ll li lv lh lm lr).delMin) i v hh m r)) := by
        simp only [delMin]
      obtain ⟨sk, sm, sb, sino, slo, shi, seq⟩ :=
        rebalance_update_spec (l := (node ll li lv lh lm lr).delMin) (r := r) i v hh m
          k1 hkr m1 mkr db hbr (by omega) (by omega)
      rw [h1]
      have horig : ((node ll li lv lh lm lr).inorder ++ (i, v) :: r.inorder).Pairwise
          (fun e f => e.1.ltI f.1) := by
        have hOrd : Ordered (node (node ll li lv lh lm lr) i v hh m r) :=
          ⟨akl, akr, hol, hor⟩
        rw [ordered_iff_pairwise, inorder_node] at hOrd
        exact hOrd
      refine ⟨⟨?_, sb, sk, sm⟩, ?_, ?_, ?_⟩
      · rw [ordered_iff_pairwise, sino]
        refine horig.sublist ?_
        rw [dino]
        exact List.Sublist.append (List.tail_sublist _) (List.Sublist.refl _)
      · simp only [realHeight_node] at dlo dhi b1 b2 ⊢
        omega
      · simp only [realHeight_node] at dlo dhi b1 b2 ⊢
        omega
      · rw [sino, dino]
        cases hl : (node ll li lv lh lm lr).inorder with
        | nil => simp at hl
        | cons x xs => simp [hl]

theorem filter_keyed_eq_self {it : Interval} {L : List (Interval × V)}
    (h : ∀ e ∈ L, e.1 ≠ it) : L.filter (fun e => decide (e.1 ≠ it)) = L :=
  List.filter_eq_self.mpr (fun e he => by simpa using h e he)

theorem filter_drop_key (it : Interval) (v : V) (L : List (Interval × V)) :
    ((it, v) :: L).filter (fun e => decide (e.1 ≠ it)) =
      L.filter (fun e => decide (e.1 ≠ it)) := by
  simp

/-- Full specification of the recursive `del`: invariants preserved, height
shrinks by at most one, the entry with the given key (and nothing else) is
removed, and the `removed` flag reports whether the key was present. -/
theorem del_spec (it : Interval) : ∀ {n : Node V}, InvN n →
    InvN (del it n).1 ∧
      (del it n).1.realHeight ≤ n.realHeight ∧
      n.realHeight ≤ (del it n).1.realHeight + 1 ∧
      (del it n).1.inorder = n.inorder.filter (fun e => decide (e.1 ≠ it)) ∧
      ((del it n).2 = true ↔ ∃ w, (it, w) ∈ n.inorder) ∧
      (del it n).1.nodeCount + (if (del it n).2 then 1 else 0) = n.nodeCount := by
  intro n
  induction n with
  | nil =>
    exact fun _ => ⟨⟨trivial, trivial, trivial, trivial⟩, by simp [del], by simp [del],
      by simp [del], by simp [del], by simp [del]⟩
  | node l i v hh m r ihl ihr =>
    intro hn
    obtain ⟨ho, hb, hk, mk⟩ := hn
    obtain ⟨akl, akr, hol, hor⟩ := ho
    obtain ⟨⟨b1, b2⟩, hbl, hbr⟩ := hb
    obtain ⟨hkk, hkl, hkr⟩ := hk
    obtain ⟨mkk, mkl, mkr⟩ := mk
    have horig : (l.inorder ++ (i, v) :: r.inorder).Pairwise (fun e f => e.1.ltI f.1) := by
      have hOrd : Ordered (node l i v hh m r) := ⟨akl, akr, hol, hor⟩
      rw [ordered_iff_pairwise, inorder_node] at hOrd
      exact hOrd
    rcases lt_trichotomy (it.compareTo i) 0 with hc | hc | hc
    · -- key smaller: recurse left
      have hlt : it.ltI i := Interval.compareTo_neg_iff.mp hc
      have h1 : (del it (node l i v hh m r)).1 =
          rebalance (update (node (del it l).1 i v hh m r)) := by
        simp only [del]
        rw [if_pos hc]
      have h2 : (del it (node l i v hh m r)).2 = (del it l).2 := by
        simp only [del]
        rw [if_pos hc]
      obtain ⟨⟨o1, db, k1, m1⟩, dlo, dhi, dfil, dflag, dcnt⟩ := ihl ⟨hol, hbl, hkl, mkl⟩
      obtain ⟨sk, sm, sb, sino, slo, shi, seq⟩ :=
        rebalance_update_spec (l := (del it l).1) (r := r) i v hh m
          k1 hkr m1 mkr db hbr (by omega) (by omega)
      rw [h1, h2]
      have hkeep : (( (i, v) :: r.inorder).filter (fun e => decide (e.1 ≠ it))) =
          (i, v) :: r.inorder := by
        rw [List.filter_eq_self]
        intro e he
        rcases List.mem_cons.mp he with rfl | he
        · simpa using (ltI_ne hlt).symm
        · have : i.ltI e.1 := allKeys_iff_forall.mp akr e he
          simpa using (ltI_ne (Interval.ltI_trans hlt this)).symm
      refine ⟨⟨?_, sb, sk, sm⟩, ?_, ?_, ?_, ?_, ?_⟩
      · rw [ordered_iff_pairwise, sino]
        refine horig.sublist ?_
        rw [dfil]
        exact List.Sublist.append (List.filter_sublist _) (List.Sublist.refl _)
      · simp only [realHeight_node]
        omega
      · simp only [realHeight_node]
        omega
      · rw [sino, dfil, inorder_node, List.filter_append, hkeep]
      · rw [dflag]
        exact (mem_left_iff akr hlt).symm
      · have cnt : (rebalance (update (node (del it l).1 i v hh m r))).nodeCount =
            (del it l).1.nodeCount + r.nodeCount + 1 := by
          rw [← length_inorder, sino]
          simp [length_inorder]
          omega
        rw [cnt]
        simp only [nodeCount_node]
        cases hfl : (del it l).2 <;> simp [hfl] at dcnt ⊢ <;> omega
    · -- key equal: remove this node
      have heq : it = i := Interval.compareTo_zero_iff.mp hc
      subst heq
      have hone : (if true = true then 1 else 0) = 1 := rfl
      cases l with
      | nil =>
        cases r with
        | nil =>
          have h1 : (del it (node nil it v hh m nil)).1 = nil := by
            simp only [del]
            rw [if_neg (by omega), if_neg (by omega)]
          have h2 : (del it (node nil it v hh m nil)).2 = true := by
            simp only [del]
            rw [if_neg (by omega), if_neg (by omega)]
          rw [h1, h2, hone]
          refine ⟨⟨trivial, trivial, trivial, trivial⟩, by simp, by simp, ?_,
            iff_of_true rfl ⟨v, by simp⟩, by simp⟩
          · have hIno : (node nil it v hh m nil).inorder = (it, v) :: ([] : List (Interval × V)) := rfl
            rw [hIno, filter_drop_key, List.filter_nil, inorder_nil]
        | node rl ri rv rh rm rr =>
          have h1 : (del it (node nil it v hh m (node rl ri rv rh rm rr))).1 =
              rebalance (update (node rl ri rv rh rm rr)) := by
            simp only [del]
            rw [if_neg (by omega), if_neg (by omega)]
          have h2 : (del it (node nil it v hh m (node rl ri rv rh rm rr))).2 = true := by
            simp only [del]
            rw [if_neg (by omega), if_neg (by omega)]
          rw [h1, h2, hone, update_eq_self hkr mkr, rebalance_eq_self_of_inv hbr hkr]
          have hA : ∀ e ∈ (node rl ri rv rh rm rr).inorder, e.1 ≠ it :=
            fun e he => (ltI_ne (allKeys_iff_forall.mp akr e he)).symm
          refine ⟨⟨hor, hbr, hkr, mkr⟩, ?_, ?_, ?_, iff_of_true rfl ⟨v, by simp⟩, ?_⟩
          · simp only [realHeight_node, realHeight_nil] at b1 b2 ⊢
            omega
          · simp only [realHeight_node, realHeight_nil] at b1 b2 ⊢
            omega
          · have hIno : (node nil it v hh m (node rl ri rv rh rm rr)).inorder =
                (it, v) :: (node rl ri rv rh rm rr).inorder := rfl
            rw [hIno, filter_drop_key, filter_keyed_eq_self hA]
          · simp only [nodeCount_node, nodeCount_nil]
            try omega
      | node ll li lv lh lm lr =>
        cases r with
        | nil =>
          have h1 : (del it (node (node ll li lv lh lm lr) it v hh m nil)).1 =
              rebalance (update (node ll li lv lh lm lr)) := by
            simp only [del]
            rw [if_neg (by omega), if_neg (by omega)]
          have h2 : (del it (node (node ll li lv lh lm lr) it v hh m nil)).2 = true := by
            simp only [del]
            rw [if_neg (by omega), if_neg (by omega)]
          rw [h1, h2, hone, update_eq_self hkl mkl, rebalance_eq_self_of_inv hbl hkl]
          have hA : ∀ e ∈ (node ll li lv lh lm lr).inorder, e.1 ≠ it :=
            fun e he => ltI_ne (allKeys_iff_forall.mp akl e he)
          refine ⟨⟨hol, hbl, hkl, mkl⟩, ?_, ?_, ?_, iff_of_true rfl ⟨v, by simp⟩, ?_⟩
          · simp only [realHeight_node, realHeight_nil] at b1 b2 ⊢
            omega
          · simp only [realHeight_node, realHeight_nil] at b1 b2 ⊢
            omega
          · have hIno : (node (node ll li lv lh lm lr) it v hh m nil).inorder =
                (node ll li lv lh lm lr).inorder ++ (it, v) :: ([] : List (Interval × V)) := rfl
            rw [hIno, List.filter_append, filter_drop_key, List.filter_nil, List.append_nil,
              filter_keyed_eq_self hA]
          · simp only [nodeCount_node, nodeCount_nil]
            try omega
        | node rl ri rv rh rm rr =>
          -- two children: replace by the in-order successor, delete its slot
          have h1 : (del it (node (node ll li lv lh lm lr) it v hh m
              (node rl ri rv rh rm rr))).1 =
              rebalance (update (node (node ll li lv lh lm lr)
                (minEntry rl (ri, rv)).1 (minEntry rl (ri, rv)).2 hh m
                (delMin (node rl ri rv rh rm rr)))) := by
            simp only [del]
            rw [if_neg (by omega), if_neg (by omega)]
          have h2 : (del it (node (node ll li lv lh lm lr) it v hh m
              (node rl ri rv rh rm rr))).2 = true := by
            simp only [del]
            rw [if_neg (by omega), if_neg (by omega)]
          have hs : minEntry rl (ri, rv) =
              ((node rl ri rv rh rm rr).inorder).headD (ri, rv) := by
            rw [← minEntry_eq, minEntry]
          obtain ⟨b0, B', hB⟩ : ∃ b0 B', (node rl ri rv rh rm rr).inorder = b0 :: B' := by
            cases hx : (node rl ri rv rh rm rr).inorder with
            | nil => simp at hx
            | cons x xs => exact ⟨x, xs, rfl⟩
          have hs0 : minEntry rl (ri, rv) = b0 := by rw [hs, hB]; rfl
          obtain ⟨⟨o1, db, k1, m1⟩, dlo, dhi, dino⟩ :=
            delMin_spec (n := node rl ri rv rh rm rr) (fun h => by cases h)
              ⟨hor, hbr, hkr, mkr⟩
          obtain ⟨sk, sm, sb, sino, slo, shi, seq⟩ :=
            rebalance_update_spec (l := node ll li lv lh lm lr)
              (r := delMin (node rl ri rv rh rm rr)) b0.1 b0.2 hh m
              hkl k1 mkl m1 hbl db (by omega) (by omega)
          rw [h1, h2, hone, hs0]
          have hBtail : (delMin (node rl ri rv rh rm rr)).inorder = B' := by
            rw [dino, hB]
            rfl
          have hmem : ∀ e ∈ (node rl ri rv rh rm rr).inorder, it.ltI e.1 :=
            allKeys_iff_forall.mp akr
          have hA : ∀ e ∈ (node ll li lv lh lm lr).inorder, e.1 ≠ it :=
            fun e he => ltI_ne (allKeys_iff_forall.mp akl e he)
          have hBall : ∀ e ∈ b0 :: B', e.1 ≠ it := by
            rw [← hB]
            exact fun e he => (ltI_ne (hmem e he)).symm
          have hIno : (node (node ll li lv lh lm lr) it v hh m
              (node rl ri rv rh rm rr)).inorder =
              (node ll li lv lh lm lr).inorder ++ (it, v) ::
                (node rl ri rv rh rm rr).inorder := rfl
          refine ⟨⟨?_, sb, sk, sm⟩, ?_, ?_, ?_, iff_of_true rfl ⟨v, by simp⟩, ?_⟩
          · rw [ordered_iff_pairwise, sino, hBtail]
            refine horig.sublist ?_
            rw [hB]
            have hsub : List.Sublist (b0 :: B') ((it, v) :: b0 :: B') :=
              List.sublist_cons_self _ _
            simpa using List.Sublist.append_left hsub (node ll li lv lh lm lr).inorder
          · simp only [realHeight_node] at b1 b2 dlo dhi slo shi seq ⊢
            omega
          · simp only [realHeight_node] at b1 b2 dlo dhi slo shi seq ⊢
            omega
          · rw [sino, hBtail, Prod.mk.eta, hIno, List.filter_append, filter_drop_key, hB,
              filter_keyed_eq_self hA, filter_keyed_eq_self hBall]
          · have cnt : (rebalance (update (node (node ll li lv lh lm lr) b0.1 b0.2 hh m
                (delMin (node rl ri rv rh rm rr))))).nodeCount =
                (node ll li lv lh lm lr).nodeCount +
                  (delMin (node rl ri rv rh rm rr)).nodeCount + 1 := by
              rw [← length_inorder, sino]
              simp [length_inorder]
              omega
            have cntB : (delMin (node rl ri rv rh rm rr)).nodeCount + 1 =
                (node rl ri rv rh rm rr).nodeCount := by
              rw [← length_inorder, ← length_inorder, hBtail, hB]
              simp
            simp only [nodeCount_node] at cnt cntB ⊢
            omega
    · -- key larger: recurse right
      have hlt : i.ltI it := Interval.compareTo_pos_iff.mp hc
      have h1 : (del it (node l i v hh m r)).1 =
          rebalance (update (node l i v hh m (del it r).1)) := by
        simp only [del]
        rw [if_neg (by omega), if_pos hc]
      have h2 : (del it (node l i v hh m r)).2 = (del it r).2 := by
        simp only [del]
        rw [if_neg (by omega), if_pos hc]
      obtain ⟨⟨o1, db, k1, m1⟩, dlo, dhi, dfil, dflag, dcnt⟩ := ihr ⟨hor, hbr, hkr, mkr⟩
      obtain ⟨sk, sm, sb, sino, slo, shi, seq⟩ :=
        rebalance_update_spec (l := l) (r := (del it r).1) i v hh m
          hkl k1 mkl m1 hbl db (by omega) (by omega)
      rw [h1, h2]
      have hkeepl : (l.inorder.filter (fun e => decide (e.1 ≠ it))) = l.inorder := by
        rw [List.filter_eq_self]
        intro e he
        have : e.1.ltI i := allKeys_iff_forall.mp akl e he
        simpa using ltI_ne (Interval.ltI_trans this hlt)
      refine ⟨⟨?_, sb, sk, sm⟩, ?_, ?_, ?_, ?_, ?_⟩
      · rw [ordered_iff_pairwise, sino]
        refine horig.sublist ?_
        rw [dfil]
        refine List.Sublist.append_left ?_ _
        exact List.cons_sublist_cons.mpr (List.filter_sublist _)
      · simp only [realHeight_node]
        omega
      · simp only [realHeight_node]
        omega
      · rw [sino, dfil, inorder_node, List.filter_append, hkeepl, List.filter_cons_of_pos]
        simpa using (ltI_ne hlt)
      · rw [dflag]
        exact (mem_right_iff akl hlt).symm
      · have cnt : (rebalance (update (node l i v hh m (del it r).1))).nodeCount =
            l.nodeCount + (del it r).1.nodeCount + 1 := by
          rw [← length_inorder, sino]
          simp [length_inorder]
          omega
        rw [cnt]
        simp only [nodeCount_node]
        cases hfl : (del it r).2 <;> simp [hfl] at dcnt ⊢ <;> omega

/-- Deleting an absent key is a complete no-op on the tree. -/
theorem del_absent (it : Interval) {n : Node V} (hn : InvN n)
    (hab : ¬ ∃ w, (it, w) ∈ n.inorder) : del it n = (n, false) := by
  induction n with
  | nil => rfl
  | node l i v hh m r ihl ihr =>
    obtain ⟨ho, hb, hk, mk⟩ := hn
    obtain ⟨akl, akr, hol, hor⟩ := ho
    rcases lt_trichotomy (it.compareTo i) 0 with hc | hc | hc
    · have h1 : del it (node l i v hh m r) =
          (rebalance (update (node (del it l).1 i v hh m r)), (del it l).2) := by
        simp only [del]
        rw [if_pos hc]
      have habl : ¬ ∃ w, (it, w) ∈ l.inorder := by
        intro ⟨w, hw⟩
        exact hab ⟨w, by simp [hw]⟩
      rw [h1, ihl ⟨hol, hb.2.1, hk.2.1, mk.2.1⟩ habl]
      rw [update_eq_self hk mk, rebalance_eq_self_of_inv hb hk]
    · exact absurd ⟨v, by simp [Interval.compareTo_zero_iff.mp hc]⟩ hab
    · have h1 : del it (node l i v hh m r) =
          (rebalance (update (node l i v hh m (del it r).1)), (del it r).2) := by
        simp only [del]
        rw [if_neg (by omega), if_pos hc]
      have habr : ¬ ∃ w, (it, w) ∈ r.inorder := by
        intro ⟨w, hw⟩
        exact hab ⟨w, by simp [hw]⟩
      rw [h1, ihr ⟨hor, hb.2.2, hk.2.2, mk.2.2⟩ habr]
      rw [update_eq_self hk mk, rebalance_eq_self_of_inv hb hk]

/-! ## Re-insertion of an existing key only overwrites the value -/

/-- Pure value replacement at the node with the given key: the shape, the
intervals and both caches are untouched. -/
def overwrite (it : Interval) (val : V) : Node V → Node V
  | nil => nil
  | node l i v hh m r =>
    if it.compareTo i < 0 then node (overwrite it val l) i v hh m r
    else if 0 < it.compareTo i then node l i v hh m (overwrite it val r)
    else node l i val hh m r

theorem height_overwrite (it : Interval) (val : V) (n : Node V) :
    (overwrite it val n).height = n.height := by
  cases n with
  | nil => rfl
  | node l i v hh m r =>
    simp only [overwrite]
    split_ifs <;> rfl

theorem mWith_overwrite (it : Interval) (val : V) (n : Node V) (d : Int) :
    (overwrite it val n).mWith d = n.mWith d := by
  cases n with
  | nil => rfl
  | node l i v hh m r =>
    simp only [overwrite]
    split_ifs <;> rfl

/-- Inserting a key that is already present returns `inserted = false` and a
tree identical to the old one except for the overwritten value: no structural
change, no cache change. -/
theorem ins_present (it : Interval) (val : V) : ∀ {n : Node V}, InvN n →
    (∃ w, (it, w) ∈ n.inorder) → ins it val n = (overwrite it val n, false) := by
  intro n
  induction n with
  | nil => rintro _ ⟨w, hw⟩; simp at hw
  | node l i v hh m r ihl ihr =>
    intro hn hp
    obtain ⟨ho, hb, hk, mk⟩ := hn
    obtain ⟨akl, akr, hol, hor⟩ := ho
    obtain ⟨⟨b1, b2⟩, hbl, hbr⟩ := hb
    obtain ⟨hkk, hkl, hkr⟩ := hk
    obtain ⟨mkk, mkl, mkr⟩ := mk
    rcases lt_trichotomy (it.compareTo i) 0 with hc | hc | hc
    · have hlt : it.ltI i := Interval.compareTo_neg_iff.mp hc
      have hpl : ∃ w, (it, w) ∈ l.inorder := (mem_left_iff akr hlt).mp hp
      have hiEq : ins it val (node l i v hh m r) =
          (rebalance (update (node (ins it val l).1 i v hh m r)), (ins it val l).2) := by
        simp only [ins]
        rw [if_pos hc]
      have hoEq : overwrite it val (node l i v hh m r) =
          node (overwrite it val l) i v hh m r := by
        simp only [overwrite]
        rw [if_pos hc]
      rw [hiEq, ihl ⟨hol, hbl, hkl, mkl⟩ hpl, hoEq]
      show (rebalance (update (node (overwrite it val l) i v hh m r)), false) = _
      have hup : update (node (overwrite it val l) i v hh m r) =
          node (overwrite it val l) i v hh m r := by
        rw [update_node, height_overwrite, mWith_overwrite, ← hkk, ← mkk]
      have e1 : l.height = l.realHeight := height_eq_real hkl
      have e2 : r.height = r.realHeight := height_eq_real hkr
      have hreb : rebalance (node (overwrite it val l) i v hh m r) =
          node (overwrite it val l) i v hh m r := by
        refine rebalance_eq_self ?_ ?_ <;>
          rw [bf_node, height_overwrite] <;> omega
      rw [hup, hreb]
    · have heq : it = i := Interval.compareTo_zero_iff.mp hc
      have hiEq : ins it val (node l i v hh m r) = (node l i val hh m r, false) := by
        simp only [ins]
        rw [if_neg (by omega), if_neg (by omega)]
      have hoEq : overwrite it val (node l i v hh m r) = node l i val hh m r := by
        simp only [overwrite]
        rw [if_neg (by omega), if_neg (by omega)]
      rw [hiEq, hoEq]
    · have hlt : i.ltI it := Interval.compareTo_pos_iff.mp hc
      have hpr : ∃ w, (it, w) ∈ r.inorder := (mem_right_iff akl hlt).mp hp
      have hiEq : ins it val (node l i v hh m r) =
          (rebalance (update (node l i v hh m (ins it val r).1)), (ins it val r).2) := by
        simp only [ins]
        rw [if_neg (by omega), if_pos hc]
      have hoEq : overwrite it val (node l i v hh m r) =
          node l i v hh m (overwrite it val r) := by
        simp only [overwrite]
        rw [if_neg (by omega), if_pos hc]
      rw [hiEq, ihr ⟨hor, hbr, hkr, mkr⟩ hpr, hoEq]
      show (rebalance (update (node l i v hh m (overwrite it val r))), false) = _
      have hup : update (node l i v hh m (overwrite it val r)) =
          node l i v hh m (overwrite it val r) := by
        rw [update_node, height_overwrite, mWith_overwrite, ← hkk, ← mkk]
      have e1 : l.height = l.realHeight := height_eq_real hkl
      have e2 : r.height = r.realHeight := height_eq_real hkr
      have hreb : rebalance (node l i v hh m (overwrite it val r)) =
          node l i v hh m (overwrite it val r) := by
        refine rebalance_eq_self ?_ ?_ <;>
          rw [bf_node, height_overwrite] <;> omega
      rw [hup, hreb]

/-! ## Exact lookup -/

theorem ltI_a_le {x y : Interval} (h : x.ltI y) : x.a ≤ y.a := by
  rcases h with h | ⟨h, _⟩ <;> omega

/-- The manual `(a, then b)` descent of `get` finds any stored entry. -/
theorem find_eq_of_mem : ∀ {n : Node V}, Ordered n → ∀ {it : Interval} {w : V},
    (it, w) ∈ n.inorder → find it n = some w := by
  intro n
  induction n with
  | nil => intro _ it w hw; simp at hw
  | node l i v hh m r ihl ihr =>
    intro ho it w hw
    obtain ⟨akl, akr, hol, hor⟩ := ho
    simp only [inorder_node, List.mem_append, List.mem_cons] at hw
    rcases hw with hw | hw | hw
    · have hlt : it.ltI i := allKeys_iff_forall.mp akl _ hw
      rcases hlt with h | ⟨h1, h2⟩
      · simp only [find]
        rw [if_pos h]
        exact ihl hol hw
      · simp only [find]
        rw [if_neg (by omega), if_neg (by omega), if_neg (by omega), if_pos h2]
        exact ihl hol hw
    · obtain ⟨h1, h2⟩ := Prod.mk.injEq .. ▸ hw
      subst h1
      subst h2
      simp only [find]
      rw [if_neg (by omega), if_neg (by omega)]
      simp
    · have hlt : i.ltI it := allKeys_iff_forall.mp akr _ hw
      rcases hlt with h | ⟨h1, h2⟩
      · simp only [find]
        rw [if_neg (by omega), if_pos h]
        exact ihr hor hw
      · simp only [find]
        rw [if_neg (by omega), if_neg (by omega), if_neg (by omega), if_neg (by omega)]
        exact ihr hor hw

/-- Conversely, `get` only returns values that are stored under exactly the
requested key. -/
theorem mem_of_find_eq : ∀ {n : Node V} {it : Interval} {w : V},
    find it n = some w → (it, w) ∈ n.inorder := by
  intro n
  induction n with
  | nil => intro it w hw; simp [find] at hw
  | node l i v hh m r ihl ihr =>
    intro it w hw
    simp only [find] at hw
    split_ifs at hw with c1 c2 c3 c4
    · exact List.mem_append.mpr (Or.inl (ihl hw))
    · exact List.mem_append.mpr (Or.inr (List.mem_cons_of_mem _ (ihr hw)))
    · have hvw : v = w := by injection hw
      subst hvw
      have : it = i := Interval.eq_iff.mpr ⟨by omega, c3⟩
      subst this
      simp
    · exact List.mem_append.mpr (Or.inl (ihl hw))
    · exact List.mem_append.mpr (Or.inr (List.mem_cons_of_mem _ (ihr hw)))

theorem inorder_rebalance_update (X : Node V) (i : Interval) (v : V) (hh : Nat) (m : Int)
    (r : Node V) :
    (rebalance (update (node X i v hh m r))).inorder = X.inorder ++ (i, v) :: r.inorder := by
  rw [inorder_rebalance, inorder_update, inorder_node]

/-- The inserted entry is present after `ins`. -/
theorem mem_ins_self (it : Interval) (val : V) : ∀ (n : Node V),
    (it, val) ∈ (ins it val n).1.inorder := by
  intro n
  induction n with
  | nil => simp [ins]
  | node l i v hh m r ihl ihr =>
    rcases lt_trichotomy (it.compareTo i) 0 with hc | hc | hc
    · have h1 : (ins it val (node l i v hh m r)).1 =
          rebalance (update (node (ins it val l).1 i v hh m r)) := by
        simp only [ins]
        rw [if_pos hc]
      rw [h1, inorder_rebalance_update]
      exact List.mem_append.mpr (Or.inl ihl)
    · have heq : it = i := Interval.compareTo_zero_iff.mp hc
      have h1 : (ins it val (node l i v hh m r)).1 = node l i val hh m r := by
        simp only [ins]
        rw [if_neg (by omega), if_neg (by omega)]
      rw [h1, heq]
      simp
    · have h1 : (ins it val (node l i v hh m r)).1 =
          rebalance (update (node l i v hh m (ins it val r).1)) := by
        simp only [ins]
        rw [if_neg (by omega), if_pos hc]
      rw [h1, inorder_rebalance_update]
      exact List.mem_append.mpr (Or.inr (List.mem_cons_of_mem _ ihr))

/-! ## The subtree-max cache: semantic characterisation -/

/-- Fold of `max` over the right endpoints of an entry list, seeded with `d`. -/
def listMaxB (L : List (Interval × V)) (d : Int) : Int :=
  L.foldl (fun acc e => max acc e.1.b) d

@[simp] theorem listMaxB_nil (d : Int) : listMaxB ([] : List (Interval × V)) d = d := rfl

@[simp] theorem listMaxB_cons (e : Interval × V) (L : List (Interval × V)) (d : Int) :
    listMaxB (e :: L) d = listMaxB L (max d e.1.b) := rfl

theorem listMaxB_append (L1 L2 : List (Interval × V)) (d : Int) :
    listMaxB (L1 ++ L2) d = listMaxB L2 (listMaxB L1 d) := by
  simp [listMaxB, List.foldl_append]

theorem le_listMaxB (L : List (Interval × V)) (d : Int) : d ≤ listMaxB L d := by
  induction L generalizing d with
  | nil => simp
  | cons e L ih =>
    rw [listMaxB_cons]
    exact le_trans (le_max_left _ _) (ih _)

theorem b_le_listMaxB (L : List (Interval × V)) (d : Int) :
    ∀ e ∈ L, e.1.b ≤ listMaxB L d := by
  induction L generalizing d with
  | nil => simp
  | cons f L ih =>
    intro e he
    rw [listMaxB_cons]
    rcases List.mem_cons.mp he with rfl | he
    · exact le_trans (le_max_right _ _) (le_listMaxB _ _)
    · exact ih _ e he

theorem listMaxB_max (L : List (Interval × V)) (z w : Int) :
    listMaxB L (max z w) = max (listMaxB L z) w := by
  induction L generalizing z with
  | nil => simp
  | cons e L ih =>
    rw [listMaxB_cons, listMaxB_cons]
    have h : max (max z w) e.1.b = max (max z e.1.b) w := by omega
    rw [h, ih]

theorem listMaxB_cases (L : List (Interval × V)) :
    ∀ d, listMaxB L d = d ∨ ∃ e ∈ L, listMaxB L d = e.1.b := by
  induction L with
  | nil => exact fun d => Or.inl rfl
  | cons e L ih =>
    intro d
    rw [listMaxB_cons]
    rcases ih (max d e.1.b) with h | ⟨f, hf, hb⟩
    · rcases le_total e.1.b d with hle | hle
      · left
        omega
      · right
        exact ⟨e, List.mem_cons_self _ _, by omega⟩
    · exact Or.inr ⟨f, List.mem_cons_of_mem _ hf, hb⟩

theorem le_mWith (n : Node V) (d : Int) : d ≤ n.mWith d := by
  cases n <;> simp

theorem mWith_eq_listMaxB : ∀ {n : Node V}, MaxOk n → ∀ d, n.mWith d = listMaxB n.inorder d := by
  intro n
  induction n with
  | nil => intro _ d; rfl
  | node l i v hh m r ihl ihr =>
    intro mk d
    obtain ⟨mkk, mkl, mkr⟩ := mk
    rw [mWith_node, inorder_node, listMaxB_append, listMaxB_cons, mkk, ihr mkr, ihl mkl]
    have h1 : max (listMaxB l.inorder d) i.b = max (listMaxB l.inorder i.b) d := by
      rw [← listMaxB_max, ← listMaxB_max, max_comm d i.b]
    rw [h1, listMaxB_max]
    omega

theorem cached_max_eq {l : Node V} {i : Interval} {v : V} {hh : Nat} {m : Int} {r : Node V}
    (mk : MaxOk (node l i v hh m r)) :
    m = listMaxB (node l i v hh m r).inorder i.b := by
  have h := mWith_eq_listMaxB mk i.b
  rw [mWith_node] at h
  have le1 : i.b ≤ m := by
    rw [mk.1]
    exact le_trans (le_mWith l i.b) (le_mWith r _)
  omega

/-- Every right endpoint in the subtree is bounded by the cached max. -/
theorem cached_max_bound {l : Node V} {i : Interval} {v : V} {hh : Nat} {m : Int} {r : Node V}
    (mk : MaxOk (node l i v hh m r)) :
    ∀ e ∈ (node l i v hh m r).inorder, e.1.b ≤ m := by
  intro e he
  rw [cached_max_eq mk]
  exact b_le_listMaxB _ _ e he

/-- The cached max is attained by some stored entry. -/
theorem cached_max_attained {l : Node V} {i : Interval} {v : V} {hh : Nat} {m : Int}
    {r : Node V} (mk : MaxOk (node l i v hh m r)) :
    ∃ e ∈ (node l i v hh m r).inorder, e.1.b = m := by
  rcases listMaxB_cases (node l i v hh m r).inorder i.b with h | ⟨e, he, hb⟩
  · exact ⟨(i, v), by simp, by rw [cached_max_eq mk, h]⟩
  · exact ⟨e, he, by rw [cached_max_eq mk, hb]⟩

/-! ## The single-path overlap search -/

/-- Correctness of the classical single-path augmented-tree search: under the
BST-order and subtree-max invariants it decides the existence of an
overlapping stored interval (closed-interval test, touching counts). -/
theorem hasO_iff (qa qb : Int) : ∀ {n : Node V}, Ordered n → MaxOk n →
    (hasO qa qb n = true ↔ ∃ e ∈ n.inorder, e.1.a ≤ qb ∧ qa ≤ e.1.b) := by
  intro n
  induction n with
  | nil => intro _ _; simp [hasO]
  | node l i v hh m r ihl ihr =>
    intro ho mk
    obtain ⟨akl, akr, hol, hor⟩ := ho
    obtain ⟨mkk, mkl, mkr⟩ := mk
    have memL : ∀ e, e ∈ l.inorder → e ∈ (node l i v hh m r).inorder := by
      intro e he
      rw [inorder_node]
      exact List.mem_append.mpr (Or.inl he)
    have memC : (i, v) ∈ (node l i v hh m r).inorder := by
      rw [inorder_node]
      exact List.mem_append.mpr (Or.inr (List.mem_cons_self _ _))
    have memR : ∀ e, e ∈ r.inorder → e ∈ (node l i v hh m r).inorder := by
      intro e he
      rw [inorder_node]
      exact List.mem_append.mpr (Or.inr (List.mem_cons_of_mem _ he))
    have memSplit : ∀ e, e ∈ (node l i v hh m r).inorder →
        e ∈ l.inorder ∨ e = (i, v) ∨ e ∈ r.inorder := by
      intro e he
      rw [inorder_node] at he
      rcases List.mem_append.mp he with he | he
      · exact Or.inl he
      · exact Or.inr (List.mem_cons.mp he)
    by_cases hov : i.a ≤ qb ∧ qa ≤ i.b
    · have h1 : hasO qa qb (node l i v hh m r) = true := by
        cases l <;> (simp only [hasO]; rw [if_pos hov])
      rw [h1]
      exact iff_of_true rfl ⟨(i, v), memC, hov⟩
    · cases l with
      | nil =>
        have h1 : hasO qa qb (node nil i v hh m r) = hasO qa qb r := by
          simp only [hasO]
          rw [if_neg hov]
        rw [h1, ihr hor mkr]
        constructor
        · rintro ⟨e, he, hee⟩
          exact ⟨e, memR e he, hee⟩
        · rintro ⟨e, he, hee⟩
          rcases memSplit e he with he | rfl | he
          · exact absurd he (by simp)
          · exact absurd hee hov
          · exact ⟨e, he, hee⟩
      | node ll li lv lh lm lr =>
        by_cases hqa : qa ≤ lm
        · have h1 : hasO qa qb (node (node ll li lv lh lm lr) i v hh m r) =
              hasO qa qb (node ll li lv lh lm lr) := by
            simp only [hasO]
            rw [if_neg hov, if_pos hqa]
          rw [h1, ihl hol mkl]
          constructor
          · rintro ⟨e, he, hee⟩
            exact ⟨e, memL e he, hee⟩
          · rintro ⟨e, he, hee⟩
            obtain ⟨he1, he2⟩ := hee
            rcases memSplit e he with he | rfl | he
            · exact ⟨e, he, he1, he2⟩
            · exact absurd ⟨he1, he2⟩ hov
            · -- the overlap sits right of the node; the max-witness on the
              -- left must itself overlap, else nothing right of it can
              obtain ⟨f, hf, hfb⟩ := cached_max_attained mkl
              by_cases hfa : f.1.a ≤ qb
              · exact ⟨f, hf, hfa, by omega⟩
              · exfalso
                have h2 : f.1.a ≤ i.a := ltI_a_le (allKeys_iff_forall.mp akl f hf)
                have h3 : i.a ≤ e.1.a := ltI_a_le (allKeys_iff_forall.mp akr e he)
                omega
        · have h1 : hasO qa qb (node (node ll li lv lh lm lr) i v hh m r) =
              hasO qa qb r := by
            simp only [hasO]
            rw [if_neg hov, if_neg hqa]
          rw [h1, ihr hor mkr]
          constructor
          · rintro ⟨e, he, hee⟩
            exact ⟨e, memR e he, hee⟩
          · rintro ⟨e, he, hee⟩
            obtain ⟨he1, he2⟩ := hee
            rcases memSplit e he with he | rfl | he
            · exfalso
              have := cached_max_bound mkl e he
              omega
            · exact absurd ⟨he1, he2⟩ hov
            · exact ⟨e, he, he1, he2⟩

/-! ## The pruned enumeration -/

/-- The pruned DFS of `getOverlapping` collects exactly the overlapping
entries, in in-order (hence ascending `(a, b)`) order. -/
theorem dfsOverlap_eq_filter (qa qb : Int) : ∀ {n : Node V}, Ordered n → MaxOk n →
    dfsOverlap qa qb n =
      n.inorder.filter (fun e => decide (e.1.a ≤ qb ∧ qa ≤ e.1.b)) := by
  intro n
  induction n with
  | nil => intro _ _; simp [dfsOverlap]
  | node l i v hh m r ihl ihr =>
    intro ho mk
    obtain ⟨akl, akr, hol, hor⟩ := ho
    obtain ⟨mkk, mkl, mkr⟩ := mk
    have e1 : (if maxGe qa l then dfsOverlap qa qb l else []) =
        l.inorder.filter (fun e => decide (e.1.a ≤ qb ∧ qa ≤ e.1.b)) := by
      cases l with
      | nil => simp
      | node ll li lv lh lm lr =>
        by_cases hqa : qa ≤ lm
        · rw [if_pos (by simp [hqa]), ihl hol mkl]
        · rw [if_neg (by simp [hqa])]
          symm
          rw [List.filter_eq_nil]
          intro e he
          simp only [decide_eq_true_eq, not_and]
          intro _
          have := cached_max_bound mkl e he
          omega
    have e3 : (if isNode r ∧ i.a ≤ qb then dfsOverlap qa qb r else []) =
        r.inorder.filter (fun e => decide (e.1.a ≤ qb ∧ qa ≤ e.1.b)) := by
      cases r with
      | nil => simp
      | node rl ri rv rh rm rr =>
        by_cases hia : i.a ≤ qb
        · rw [if_pos ⟨by simp, hia⟩, ihr hor mkr]
        · rw [if_neg (fun hcon => hia hcon.2)]
          symm
          rw [List.filter_eq_nil]
          intro e he
          simp only [decide_eq_true_eq, not_and]
          intro hea
          have := ltI_a_le (allKeys_iff_forall.mp akr e he)
          omega
    simp only [dfsOverlap]
    rw [e1, e3, inorder_node, List.filter_append, List.filter_cons]
    by_cases hov : i.a ≤ qb ∧ qa ≤ i.b
    · simp [hov]
    · simp [hov]

/-! ## The fast-path point query -/

/-- Soundness: a value returned by the fast path is the value of some stored
interval containing the point. -/
theorem getAtFast_sound : ∀ {n : Node V} {x : Int} {w : V},
    getAtFast x n = some w → ∃ i2, (i2, w) ∈ n.inorder ∧ i2.a ≤ x ∧ x ≤ i2.b := by
  intro n
  induction n with
  | nil => intro x w hw; simp [getAtFast] at hw
  | node l i v hh m r ihl ihr =>
    intro x w hw
    simp only [getAtFast] at hw
    split_ifs at hw with c1 c2
    · obtain ⟨i2, h1, h2⟩ := ihl hw
      exact ⟨i2, by simp [h1], h2⟩
    · obtain ⟨i2, h1, h2⟩ := ihr hw
      exact ⟨i2, by simp [h1], h2⟩
    · have hvw : v = w := by injection hw
      subst hvw
      exact ⟨i, by simp, by omega, by omega⟩

/-- Completeness on pairwise non-overlapping stores: if the stored intervals
are valid and pairwise disjoint and one of them contains `x`, the fast path
finds it. -/
theorem getAtFast_disjoint_complete : ∀ {n : Node V}, Ordered n →
    (∀ e ∈ n.inorder, e.1.a ≤ e.1.b) →
    (∀ e ∈ n.inorder, ∀ f ∈ n.inorder, e ≠ f → ¬(e.1.a ≤ f.1.b ∧ f.1.a ≤ e.1.b)) →
    ∀ {x : Int}, (∃ e ∈ n.inorder, e.1.a ≤ x ∧ x ≤ e.1.b) →
    ∃ w, getAtFast x n = some w := by
  intro n
  induction n with
  | nil => rintro _ _ _ x ⟨e, he, _⟩; simp at he
  | node l i v hh m r ihl ihr =>
    rintro ho hval hdisj x ⟨e, he, he1, he2⟩
    obtain ⟨akl, akr, hol, hor⟩ := ho
    have hsubl : ∀ g ∈ l.inorder, g ∈ (node l i v hh m r).inorder := by
      intro g hg
      simp [hg]
    have hsubr : ∀ g ∈ r.inorder, g ∈ (node l i v hh m r).inorder := by
      intro g hg
      simp [hg]
    rcases lt_trichotomy x i.a with hx | hx | hx
    · -- descend left; the containing interval must be in the left subtree
      have h1 : getAtFast x (node l i v hh m r) = getAtFast x l := by
        simp only [getAtFast]
        rw [if_pos hx]
      rw [h1]
      refine ihl hol (fun g hg => hval g (hsubl g hg))
        (fun g hg f hf hne => hdisj g (hsubl g hg) f (hsubl f hf) hne) ?_
      simp only [inorder_node, List.mem_append, List.mem_cons] at he
      rcases he with he | rfl | he
      · exact ⟨e, he, he1, he2⟩
      · simp at he1 he2
        omega
      · exfalso
        have := ltI_a_le (allKeys_iff_forall.mp akr e he)
        omega
    · -- x = i.a: the node itself contains x (its interval is valid)
      have hvi : i.a ≤ i.b := hval (i, v) (by simp)
      have h1 : getAtFast x (node l i v hh m r) = some v := by
        simp only [getAtFast]
        rw [if_neg (by omega), if_neg (by omega)]
      exact ⟨v, h1⟩
    · by_cases hxb : x ≤ i.b
      · have h1 : getAtFast x (node l i v hh m r) = some v := by
          simp only [getAtFast]
          rw [if_neg (by omega), if_neg (by omega)]
        exact ⟨v, h1⟩
      · -- x > i.b: any containing interval is right of the node
        have h1 : getAtFast x (node l i v hh m r) = getAtFast x r := by
          simp only [getAtFast]
          rw [if_neg (by omega), if_pos (by omega)]
        rw [h1]
        refine ihr hor (fun g hg => hval g (hsubr g hg))
          (fun g hg f hf hne => hdisj g (hsubr g hg) f (hsubr f hf) hne) ?_
        have hvi : i.a ≤ i.b := hval (i, v) (by simp)
        simp only [inorder_node, List.mem_append, List.mem_cons] at he
        rcases he with he | rfl | he
        · exfalso
          have hne : e ≠ (i, v) := by
            intro hcon
            have := allKeys_iff_forall.mp akl e he
            rw [hcon] at this
            exact Interval.ltI_irrefl i this
          have hd := hdisj e (hsubl e he) (i, v) (by simp) hne
          simp only [ne_eq] at hd
          simp at hd
          have hea : e.1.a ≤ i.a := ltI_a_le (allKeys_iff_forall.mp akl e he)
          omega
        · simp at he1 he2
          omega
        · exact ⟨e, he, he1, he2⟩

end Node

/-! ## The bulk builder: sort, merge sweep, midpoint build -/

section FromArrayLemmas

variable {V : Type} [LinearOrder V]

/-- Characterisation of "the comparator returns `<= 0`". -/
theorem cmpPair_le_iff (ms : Bool) (x y : Interval × V) :
    cmpPair ms x y ≤ 0 ↔
      (x.1.ltI y.1 ∨ (x.1 = y.1 ∧ (ms = true → x.2 ≤ y.2))) := by
  unfold cmpPair
  by_cases h1 : x.1.a ≠ y.1.a
  · rw [if_pos h1]
    constructor
    · intro h
      left
      rw [Interval.ltI_iff]
      omega
    · rintro (hlt | ⟨heq, _⟩)
      · rw [Interval.ltI_iff] at hlt
        omega
      · rw [Interval.eq_iff] at heq
        omega
  · rw [if_neg h1]
    by_cases h2 : x.1.b ≠ y.1.b
    · rw [if_pos h2]
      constructor
      · intro h
        left
        rw [Interval.ltI_iff]
        omega
      · rintro (hlt | ⟨heq, _⟩)
        · rw [Interval.ltI_iff] at hlt
          omega
        · rw [Interval.eq_iff] at heq
          omega
    · rw [if_neg h2]
      have hkey : x.1 = y.1 := Interval.eq_iff.mpr ⟨by omega, by omega⟩
      cases ms with
      | false =>
        rw [if_neg Bool.false_ne_true]
        exact iff_of_true (by omega) (Or.inr ⟨hkey, fun h => absurd h (by simp)⟩)
      | true =>
        rw [if_pos rfl]
        rcases lt_trichotomy x.2 y.2 with hv | hv | hv
        · rw [if_pos hv]
          exact iff_of_true (by omega) (Or.inr ⟨hkey, fun _ => le_of_lt hv⟩)
        · rw [if_neg (by rw [hv]; exact lt_irrefl _), if_neg (by rw [hv]; exact lt_irrefl _)]
          exact iff_of_true (by omega) (Or.inr ⟨hkey, fun _ => le_of_eq hv⟩)
        · rw [if_neg (lt_asymm hv), if_pos hv]
          constructor
          · intro h
            omega
          · rintro (hlt | ⟨heq, hle⟩)
            · rw [Interval.ltI_iff] at hlt
              omega
            · exact absurd (hle rfl) (not_le.mpr hv)

theorem cmpPair_total (ms : Bool) (x y : Interval × V) :
    cmpPair ms x y ≤ 0 ∨ cmpPair ms y x ≤ 0 := by
  rw [cmpPair_le_iff, cmpPair_le_iff]
  rcases lt_trichotomy x.1.a y.1.a with h | h | h
  · exact Or.inl (Or.inl (Or.inl h))
  · rcases lt_trichotomy x.1.b y.1.b with h2 | h2 | h2
    · exact Or.inl (Or.inl (Or.inr ⟨h, h2⟩))
    · have hkey : x.1 = y.1 := Interval.eq_iff.mpr ⟨h, h2⟩
      rcases le_total x.2 y.2 with hv | hv
      · exact Or.inl (Or.inr ⟨hkey, fun _ => hv⟩)
      · exact Or.inr (Or.inr ⟨hkey.symm, fun _ => hv⟩)
    · exact Or.inr (Or.inl (Or.inr ⟨h.symm, h2⟩))
  · exact Or.inr (Or.inl (Or.inl h))

theorem cmpPair_trans (ms : Bool) {x y z : Interval × V} (h1 : cmpPair ms x y ≤ 0)
    (h2 : cmpPair ms y z ≤ 0) : cmpPair ms x z ≤ 0 := by
  rw [cmpPair_le_iff] at *
  rcases h1 with h1 | ⟨h1, hv1⟩
  · rcases h2 with h2 | ⟨h2, _⟩
    · exact Or.inl (Interval.ltI_trans h1 h2)
    · exact Or.inl (by rw [← h2]; exact h1)
  · rcases h2 with h2 | ⟨h2, hv2⟩
    · exact Or.inl (by rw [h1]; exact h2)
    · exact Or.inr ⟨h1.trans h2, fun hms => le_trans (hv1 hms) (hv2 hms)⟩

theorem insSorted_perm (ms : Bool) (x : Interval × V) :
    ∀ L, (insSorted ms x L).Perm (x :: L) := by
  intro L
  induction L with
  | nil => exact List.Perm.refl _
  | cons y ys ih =>
    simp only [insSorted]
    split_ifs with h
    · exact (ih.cons y).trans (List.Perm.swap x y ys)
    · exact List.Perm.refl _

/-- The model sort is a permutation of its input. -/
theorem sortPairs_perm (ms : Bool) (ps : List (Interval × V)) :
    (sortPairs ms ps).Perm ps := by
  suffices h : ∀ (qs acc : List (Interval × V)),
      (qs.foldl (fun a x => insSorted ms x a) acc).Perm (acc ++ qs) by
    simpa using h ps []
  intro qs
  induction qs with
  | nil => intro acc; simp
  | cons x qs ih =>
    intro acc
    simp only [List.foldl_cons]
    refine (ih (insSorted ms x acc)).trans ?_
    refine (List.Perm.append_right qs (insSorted_perm ms x acc)).trans ?_
    exact List.perm_middle.symm

theorem insSorted_pairwise (ms : Bool) (x : Interval × V) :
    ∀ {L : List (Interval × V)}, L.Pairwise (fun a b => cmpPair ms a b ≤ 0) →
      (insSorted ms x L).Pairwise (fun a b => cmpPair ms a b ≤ 0) := by
  intro L
  induction L with
  | nil => intro _; simp [insSorted]
  | cons y ys ih =>
    intro hL
    obtain ⟨hy, hys⟩ := List.pairwise_cons.mp hL
    simp only [insSorted]
    split_ifs with h
    · refine List.pairwise_cons.mpr ⟨?_, ih hys⟩
      intro b hb
      rcases List.mem_cons.mp ((insSorted_perm ms x ys).mem_iff.mp hb) with rfl | hbm
      · exact h
      · exact hy b hbm
    · refine List.pairwise_cons.mpr ⟨?_, hL⟩
      intro b hb
      have hxy : cmpPair ms x y ≤ 0 := by
        rcases cmpPair_total ms x y with h2 | h2
        · exact h2
        · exact absurd h2 h
      rcases List.mem_cons.mp hb with rfl | hbm
      · exact hxy
      · exact cmpPair_trans ms hxy (hy b hbm)

/-- The model sort is sorted under the comparator. -/
theorem sortPairs_pairwise (ms : Bool) (ps : List (Interval × V)) :
    (sortPairs ms ps).Pairwise (fun a b => cmpPair ms a b ≤ 0) := by
  suffices h : ∀ (qs acc : List (Interval × V)),
      acc.Pairwise (fun a b => cmpPair ms a b ≤ 0) →
      (qs.foldl (fun a x => insSorted ms x a) acc).Pairwise
        (fun a b => cmpPair ms a b ≤ 0) by
    exact h ps [] (by simp)
  intro qs
  induction qs with
  | nil => intro acc h; exact h
  | cons x qs ih =>
    intro acc h
    simp only [List.foldl_cons]
    exact ih _ (insSorted_pairwise ms x h)

/-- With pairwise-distinct interval keys, the sorted list is strictly
increasing under lexicographic key order. -/
theorem sortPairs_strict (ms : Bool) (ps : List (Interval × V))
    (hnd : ps.Pairwise (fun a b => a.1 ≠ b.1)) :
    (sortPairs ms ps).Pairwise (fun a b => a.1.ltI b.1) := by
  have h1 := sortPairs_pairwise ms ps
  have h2 : (sortPairs ms ps).Pairwise (fun a b => a.1 ≠ b.1) :=
    ((sortPairs_perm ms ps).pairwise_iff (fun hab => Ne.symm hab)).mpr hnd
  refine (h1.and h2).imp ?_
  rintro a b ⟨hle, hne⟩
  rcases (cmpPair_le_iff ms a b).mp hle with h | ⟨h, _⟩
  · exact h
  · exact absurd h hne

/-- Any strict lower bound of the current entry and of the remaining input
bounds everything the sweep emits. -/
theorem sweep_bound {g : Interval × V} : ∀ (es : List (Interval × V)) (x : Interval × V),
    g.1.ltI x.1 → (∀ e ∈ es, g.1.ltI e.1) → ∀ f ∈ sweep x es, g.1.ltI f.1 := by
  intro es
  induction es with
  | nil =>
    intro x hgx _ f hf
    simp only [sweep, List.mem_singleton] at hf
    subst hf
    exact hgx
  | cons e es ih =>
    intro x hgx hges f hf
    simp only [sweep] at hf
    split_ifs at hf with hm
    · refine ih _ ?_ (fun e2 he2 => hges e2 (List.mem_cons_of_mem _ he2)) f hf
      rcases hgx with h | ⟨h1, h2⟩
      · exact Or.inl h
      · exact Or.inr ⟨h1, lt_of_lt_of_le h2 (le_max_left _ _)⟩
    · rcases List.mem_cons.mp hf with rfl | hf
      · exact hgx
      · exact ih e (hges e (List.mem_cons_self _ _))
          (fun e2 he2 => hges e2 (List.mem_cons_of_mem _ he2)) f hf

/-- On a strictly key-sorted input the merge sweep emits strictly
key-sorted output. -/
theorem sweep_pairwise : ∀ (es : List (Interval × V)) (x : Interval × V),
    es.Pairwise (fun a b => a.1.ltI b.1) → (∀ e ∈ es, x.1.ltI e.1) →
    (sweep x es).Pairwise (fun a b => a.1.ltI b.1) := by
  intro es
  induction es with
  | nil => intro x _ _; simp [sweep]
  | cons e es ih =>
    intro x hp hb
    obtain ⟨he, hes⟩ := List.pairwise_cons.mp hp
    simp only [sweep]
    split_ifs with hm
    · refine ih _ hes ?_
      intro f hf
      have hxf := hb f (List.mem_cons_of_mem _ hf)
      have hef := he f hf
      have hxe := hb e (List.mem_cons_self _ _)
      rcases hxf with h | ⟨h1, h2⟩
      · exact Or.inl h
      · have hxa : x.1.a ≤ e.1.a := Node.ltI_a_le hxe
        have hea : e.1.a ≤ f.1.a := Node.ltI_a_le hef
        have heb : e.1.b < f.1.b := by
          rcases hef with h3 | ⟨h3, h4⟩
          · omega
          · omega
        exact Or.inr ⟨h1, max_lt h2 heb⟩
    · refine List.pairwise_cons.mpr
        ⟨?_, ih e hes (fun f hf => he f hf)⟩
      intro f hf
      exact sweep_bound es e (hb e (List.mem_cons_self _ _))
        (fun e2 he2 => hb e2 (List.mem_cons_of_mem _ he2)) f hf

theorem mergeSweep_pairwise (L : List (Interval × V))
    (h : L.Pairwise (fun a b => a.1.ltI b.1)) :
    (mergeSweep L).Pairwise (fun a b => a.1.ltI b.1) := by
  cases L with
  | nil => simp [mergeSweep]
  | cons e es =>
    exact sweep_pairwise es e (List.pairwise_cons.mp h).2 (List.pairwise_cons.mp h).1

theorem buildList_nil : buildList ([] : List (Interval × V)) = Node.nil := by
  rw [buildList]

/-- The midpoint build flattens back to exactly the input list. -/
theorem inorder_buildList : ∀ ps : List (Interval × V), (buildList ps).inorder = ps := by
  suffices h : ∀ (N : Nat) (ps : List (Interval × V)), ps.length ≤ N →
      (buildList ps).inorder = ps from fun ps => h ps.length ps le_rfl
  intro N
  induction N with
  | zero =>
    intro ps h
    rw [List.length_eq_zero.mp (Nat.le_zero.mp h), buildList_nil]
    rfl
  | succ N ih =>
    intro ps hlen
    cases ps with
    | nil => rw [buildList_nil]; rfl
    | cons x xs =>
      rw [buildList]
      simp only [Node.inorder_node]
      rw [ih _ (by simp only [List.length_take, List.length_cons] at hlen ⊢; omega), ih _ (by simp only [List.length_drop, List.length_cons] at hlen ⊢; omega)]
      have hk : xs.length / 2 < (x :: xs).length := by simp; omega
      rw [List.getD_eq_getElem _ _ hk, ← List.drop_eq_getElem_cons hk, List.take_append_drop]

theorem nodeCount_buildList (ps : List (Interval × V)) :
    (buildList ps).nodeCount = ps.length := by
  rw [← Node.length_inorder, inorder_buildList]

/-- The build produces correct height caches. -/
theorem heightsOk_buildList : ∀ ps : List (Interval × V), Node.HeightsOk (buildList ps) := by
  suffices h : ∀ (N : Nat) (ps : List (Interval × V)), ps.length ≤ N →
      Node.HeightsOk (buildList ps) from fun ps => h ps.length ps le_rfl
  intro N
  induction N with
  | zero =>
    intro ps h
    rw [List.length_eq_zero.mp (Nat.le_zero.mp h), buildList_nil]
    exact trivial
  | succ N ih =>
    intro ps hlen
    cases ps with
    | nil => rw [buildList_nil]; exact trivial
    | cons x xs =>
      rw [buildList]
      exact ⟨rfl, ih _ (by simp only [List.length_take, List.length_cons] at hlen ⊢; omega), ih _ (by simp only [List.length_drop, List.length_cons] at hlen ⊢; omega)⟩

/-- The build produces correct subtree-max caches. -/
theorem maxOk_buildList : ∀ ps : List (Interval × V), Node.MaxOk (buildList ps) := by
  suffices h : ∀ (N : Nat) (ps : List (Interval × V)), ps.length ≤ N →
      Node.MaxOk (buildList ps) from fun ps => h ps.length ps le_rfl
  intro N
  induction N with
  | zero =>
    intro ps h
    rw [List.length_eq_zero.mp (Nat.le_zero.mp h), buildList_nil]
    exact trivial
  | succ N ih =>
    intro ps hlen
    cases ps with
    | nil => rw [buildList_nil]; exact trivial
    | cons x xs =>
      rw [buildList]
      exact ⟨rfl, ih _ (by simp only [List.length_take, List.length_cons] at hlen ⊢; omega), ih _ (by simp only [List.length_drop, List.length_cons] at hlen ⊢; omega)⟩

/-- The exact height of the midpoint build: `ceil(log2(n + 1))`. -/
theorem realHeight_buildList : ∀ ps : List (Interval × V),
    (buildList ps).realHeight = Nat.clog 2 (ps.length + 1) := by
  suffices h : ∀ (N : Nat) (ps : List (Interval × V)), ps.length ≤ N →
      (buildList ps).realHeight = Nat.clog 2 (ps.length + 1) from fun ps => h ps.length ps le_rfl
  intro N
  induction N with
  | zero =>
    intro ps h
    rw [List.length_eq_zero.mp (Nat.le_zero.mp h), buildList_nil]
    simp [Nat.clog]
  | succ N ih =>
    intro ps hlen
    cases ps with
    | nil => rw [buildList_nil]; simp [Nat.clog]
    | cons x xs =>
      rw [buildList]
      simp only [Node.realHeight_node]
      rw [ih _ (by simp only [List.length_take, List.length_cons] at hlen ⊢; omega), ih _ (by simp only [List.length_drop, List.length_cons] at hlen ⊢; omega)]
      have h1 : ((x :: xs).take (xs.length / 2)).length = xs.length / 2 := by
        simp only [List.length_take, List.length_cons]
        omega
      have h2 : ((x :: xs).drop (xs.length / 2 + 1)).length = xs.length - xs.length / 2 := by
        simp only [List.length_drop, List.length_cons]
        omega
      rw [h1, h2]
      have hrec : Nat.clog 2 ((x :: xs).length + 1) =
          Nat.clog 2 (xs.length - xs.length / 2 + 1) + 1 := by
        rw [List.length_cons, Nat.clog_of_two_le (by omega) (by omega)]
        congr 2
        omega
      rw [hrec]
      have hmono : Nat.clog 2 (xs.length / 2 + 1) ≤
          Nat.clog 2 (xs.length - xs.length / 2 + 1) :=
        Nat.clog_mono_right 2 (by omega)
      omega

/-- The two halves of the midpoint split have heights within 1: the build
already satisfies the AVL balance condition everywhere (no rotations). -/
theorem balanced_buildList : ∀ ps : List (Interval × V), Node.BalancedN (buildList ps) := by
  suffices h : ∀ (N : Nat) (ps : List (Interval × V)), ps.length ≤ N →
      Node.BalancedN (buildList ps) from fun ps => h ps.length ps le_rfl
  have hstep : ∀ n : Nat, Nat.clog 2 (n + 2) ≤ Nat.clog 2 (n + 1) + 1 := by
    intro n
    have h1 : n + 1 ≤ 2 ^ Nat.clog 2 (n + 1) := (Nat.le_pow_iff_clog_le (by omega)).mpr le_rfl
    have h2 : n + 2 ≤ 2 ^ (Nat.clog 2 (n + 1) + 1) := by
      rw [pow_succ]
      omega
    exact (Nat.le_pow_iff_clog_le (by omega)).mp h2
  intro N
  induction N with
  | zero =>
    intro ps h
    rw [List.length_eq_zero.mp (Nat.le_zero.mp h), buildList_nil]
    exact trivial
  | succ N ih =>
    intro ps hlen
    cases ps with
    | nil => rw [buildList_nil]; exact trivial
    | cons x xs =>
      rw [buildList]
      refine ⟨⟨?_, ?_⟩, ih _ (by simp only [List.length_take, List.length_cons] at hlen ⊢; omega),
        ih _ (by simp only [List.length_drop, List.length_cons] at hlen ⊢; omega)⟩ <;>
        rw [realHeight_buildList, realHeight_buildList] <;>
        simp only [List.length_take, List.length_drop, List.length_cons]
      · -- left height <= right height + 1 (left half is the smaller one)
        have : min (xs.length / 2) (xs.length + 1) = xs.length / 2 := by omega
        rw [this]
        have := Nat.clog_mono_right 2
          (show xs.length / 2 + 1 ≤ xs.length + 1 - (xs.length / 2 + 1) + 1 by omega)
        omega
      · have : min (xs.length / 2) (xs.length + 1) = xs.length / 2 := by omega
        rw [this]
        have h2 : xs.length + 1 - (xs.length / 2 + 1) + 1 ≤ xs.length / 2 + 2 := by omega
        have h3 := Nat.clog_mono_right 2 h2
        have h4 := hstep (xs.length / 2)
        omega

end FromArrayLemmas

/-! ## Argument guards (`instanceof Interval` checks) -/

/-- A JS argument: either a genuine `Interval` instance or any other value
(for which `instanceof Interval` is false). -/
inductive JSArg where
  | ival (i : Interval)
  | other (tag : Nat)

namespace IntervalMap

variable {V : Type}

/-- `set` with its argument guard: the `instanceof` check runs before any
tree access and throws the JS `Error` for non-`Interval` arguments. -/
def setChecked (m : IntervalMap V) (x : JSArg) (val : V) : Except String (IntervalMap V) :=
  match x with
  | .ival i => .ok (m.set i val)
  | .other _ => .error "IntervalMap.set expects Interval"

/-- `get` with its argument guard. -/
def getChecked (m : IntervalMap V) (x : JSArg) : Except String (Option V) :=
  match x with
  | .ival i => .ok (m.get i)
  | .other _ => .error "IntervalMap.get expects Interval"

/-- `delete` with its argument guard. -/
def delChecked (m : IntervalMap V) (x : JSArg) : Except String (IntervalMap V × Bool) :=
  match x with
  | .ival i => .ok (m.del i)
  | .other _ => .error "IntervalMap.delete expects Interval"

/-- `hasOverlap` with its argument guard. -/
def hasOverlapChecked (m : IntervalMap V) (x : JSArg) : Except String Bool :=
  match x with
  | .ival i => .ok (m.hasOverlap i)
  | .other _ => .error "IntervalMap.hasOverlap expects Interval"

/-- `getOverlapping` with its argument guard. -/
def getOverlappingChecked (m : IntervalMap V) (x : JSArg) :
    Except String (List (Interval × V)) :=
  match x with
  | .ival i => .ok (m.getOverlapping i)
  | .other _ => .error "IntervalMap.getOverlapping expects Interval"

end IntervalMap

/-! ## Map-level helper lemmas -/

theorem Node.cloneNode_eq {V : Type} (n : Node V) : n.cloneNode = n := by
  induction n with
  | nil => rfl
  | node l i v hh m r ihl ihr => rw [cloneNode, ihl, ihr]

theorem IntervalMap.set_inv {V : Type} (m : IntervalMap V) (it : Interval) (val : V)
    (hn : m.Inv) : (m.set it val).Inv := by
  obtain ⟨hnN, hsz⟩ := hn
  obtain ⟨h1, _, _, h4, _, _⟩ := Node.ins_spec it val hnN
  refine ⟨h1, ?_⟩
  show (if (Node.ins it val m.root).2 then m.size + 1 else m.size) =
    (Node.ins it val m.root).1.nodeCount
  cases hfl : (Node.ins it val m.root).2 <;> simp [hfl] at h4 ⊢ <;> omega

theorem IntervalMap.del_inv {V : Type} (m : IntervalMap V) (it : Interval)
    (hn : m.Inv) : (m.del it).1.Inv := by
  obtain ⟨hnN, hsz⟩ := hn
  obtain ⟨h1, _, _, _, _, h6⟩ := Node.del_spec it hnN
  refine ⟨h1, ?_⟩
  show (if (Node.del it m.root).2 then m.size - 1 else m.size) =
    (Node.del it m.root).1.nodeCount
  cases hfl : (Node.del it m.root).2 <;> simp [hfl] at h6 ⊢ <;> omega

theorem IntervalMap.del_absent_eq {V : Type} (m : IntervalMap V) (it : Interval)
    (hn : m.Inv) (habs : ¬ ∃ w, (it, w) ∈ m.toArray) : m.del it = (m, false) := by
  have h := Node.del_absent it hn.1 habs
  have h1 : (Node.del it m.root).1 = m.root := by rw [h]
  have h2 : (Node.del it m.root).2 = false := by rw [h]
  show (⟨(Node.del it m.root).1, if (Node.del it m.root).2 then m.size - 1 else m.size⟩,
    (Node.del it m.root).2) = (m, false)
  rw [h1, h2]
  simp

theorem IntervalMap.get_absent {V : Type} (m : IntervalMap V) (it : Interval)
    (habs : ¬ ∃ w, (it, w) ∈ m.toArray) : m.get it = none := by
  cases h : m.get it with
  | none => rfl
  | some w => exact absurd ⟨w, Node.mem_of_find_eq h⟩ habs

theorem IntervalMap.fromArray_some_inv {V : Type} [LinearOrder V]
    (ps : List (Interval × V)) (ms : Bool)
    (hnd : ps.Pairwise (fun x y => x.1 ≠ y.1)) :
    (IntervalMap.fromArray (some ps) ms).Inv := by
  by_cases hps : ps.length = 0
  · have h : IntervalMap.fromArray (some ps) ms = ⟨Node.nil, 0⟩ := by
      simp only [IntervalMap.fromArray]
      rw [if_pos hps]
    rw [h]
    exact ⟨⟨trivial, trivial, trivial, trivial⟩, rfl⟩
  · have h : IntervalMap.fromArray (some ps) ms =
        ⟨buildList (if ms then mergeSweep (sortPairs ms ps) else sortPairs ms ps),
         (if ms then mergeSweep (sortPairs ms ps) else sortPairs ms ps).length⟩ := by
      simp only [IntervalMap.fromArray]
      rw [if_neg hps]
    rw [h]
    have hstrict : (if ms then mergeSweep (sortPairs ms ps) else sortPairs ms ps).Pairwise
        (fun x y => x.1.ltI y.1) := by
      cases ms with
      | false => exact sortPairs_strict false ps hnd
      | true => exact mergeSweep_pairwise _ (sortPairs_strict true ps hnd)
    exact ⟨⟨Node.ordered_iff_pairwise.mpr (by rw [inorder_buildList]; exact hstrict),
      balanced_buildList _, heightsOk_buildList _, maxOk_buildList _⟩,
      (nodeCount_buildList _).symm⟩



/-! ## The claims -/

/-- C1 (amended): the empty map satisfies the data-model invariants, and
`set`, `delete`, `clear` and `clone` preserve all four of them (BST order,
AVL balance, cache correctness, size = node count) on every input;
`fromArray` establishes them provided the input entries carry pairwise
distinct interval keys (with duplicate keys the built tree violates strict
BST order, see the counterexample). -/
theorem claim_C1 {V : Type} [LinearOrder V] :
    (IntervalMap.empty : IntervalMap V).Inv ∧
    (∀ (m : IntervalMap V) (it : Interval) (val : V), m.Inv → (m.set it val).Inv) ∧
    (∀ (m : IntervalMap V) (it : Interval), m.Inv → (m.del it).1.Inv) ∧
    (∀ m : IntervalMap V, m.clear.Inv) ∧
    (∀ m : IntervalMap V, m.Inv → m.clone.Inv) ∧
    (∀ (ps : List (Interval × V)) (ms : Bool), ps.Pairwise (fun x y => x.1 ≠ y.1) →
      (IntervalMap.fromArray (some ps) ms).Inv) ∧
    (∀ ms : Bool, (IntervalMap.fromArray (none : Option (List (Interval × V))) ms).Inv) := by
  refine ⟨⟨⟨trivial, trivial, trivial, trivial⟩, rfl⟩,
    fun m it val hn => IntervalMap.set_inv m it val hn,
    fun m it hn => IntervalMap.del_inv m it hn,
    fun m => ⟨⟨trivial, trivial, trivial, trivial⟩, rfl⟩,
    fun m hn => ?_,
    fun ps ms hnd => IntervalMap.fromArray_some_inv ps ms hnd,
    fun ms => ⟨⟨trivial, trivial, trivial, trivial⟩, rfl⟩⟩
  obtain ⟨hnN, hsz⟩ := hn
  show (⟨m.root.cloneNode, m.size⟩ : IntervalMap V).Inv
  rw [Node.cloneNode_eq]
  exact ⟨hnN, hsz⟩

/-- C1 witness: concrete instances of the preserved invariant. -/
theorem claim_C1_witness :
    ((IntervalMap.empty : IntervalMap Int).set ⟨1, 5⟩ 7).Inv ∧
    (IntervalMap.fromArray (some [((⟨0, 2⟩ : Interval), (3 : Int)), (⟨4, 9⟩, 3)]) true).Inv :=
  ⟨claim_C1.2.1 _ _ _ claim_C1.1,
   claim_C1.2.2.2.2.2.1 [((⟨0, 2⟩ : Interval), (3 : Int)), (⟨4, 9⟩, 3)] true (by decide)⟩

/-- C1 counterexample: `fromArray` on valid input with a duplicated interval
key builds a tree that violates the BST-order invariant, so the claim as
stated (any sequence of valid inputs, including `fromArray`) is false. -/
theorem claim_C1_counterexample :
    ¬ (IntervalMap.fromArray
        (some [((⟨0, 1⟩ : Interval), (0 : Int)), (⟨0, 1⟩, 1)]) false).Inv := by
  intro h
  have ho : Node.Ordered (IntervalMap.fromArray
      (some [((⟨0, 1⟩ : Interval), (0 : Int)), (⟨0, 1⟩, 1)]) false).root := h.1.1
  have hr : (IntervalMap.fromArray
      (some [((⟨0, 1⟩ : Interval), (0 : Int)), (⟨0, 1⟩, 1)]) false).root =
      buildList [((⟨0, 1⟩ : Interval), (0 : Int)), (⟨0, 1⟩, 1)] := rfl
  rw [hr] at ho
  have hp := Node.ordered_iff_pairwise.mp ho
  rw [inorder_buildList] at hp
  have h2 := (List.pairwise_cons.mp hp).1 (⟨0, 1⟩, 1) (by simp)
  exact absurd h2 (by decide)

/-- C2: on a tree satisfying the BST-order and subtree-max invariants, the
single-path `hasOverlap` returns true exactly when `getOverlapping` returns
a non-empty sequence, i.e. exactly when some stored interval `[a,b]`
satisfies `a <= qb` and `qa <= b`. -/
theorem claim_C2 {V : Type} (m : IntervalMap V) (q : Interval)
    (ho : Node.Ordered m.root) (mk : Node.MaxOk m.root) :
    (m.hasOverlap q = true ↔ m.getOverlapping q ≠ []) := by
  have h1 := Node.hasO_iff q.a q.b ho mk
  have h2 := Node.dfsOverlap_eq_filter q.a q.b ho mk
  show Node.hasO q.a q.b m.root = true ↔ Node.dfsOverlap q.a q.b m.root ≠ []
  rw [h1, h2]
  constructor
  · rintro ⟨e, he, h3, h4⟩ hnil
    rw [List.filter_eq_nil] at hnil
    exact hnil e he (by simpa using ⟨h3, h4⟩)
  · intro hne
    obtain ⟨e, he⟩ := List.exists_mem_of_ne_nil _ hne
    obtain ⟨hmem, hp⟩ := List.mem_filter.mp he
    simp only [decide_eq_true_eq] at hp
    exact ⟨e, hmem, hp⟩

/-- C2 witness: a concrete map on which the equivalence is instantiated. -/
theorem claim_C2_witness :
    (((IntervalMap.empty : IntervalMap Int).set ⟨0, 5⟩ 1).hasOverlap ⟨3, 9⟩ = true ↔
      ((IntervalMap.empty : IntervalMap Int).set ⟨0, 5⟩ 1).getOverlapping ⟨3, 9⟩ ≠ []) :=
  claim_C2 ((IntervalMap.empty : IntervalMap Int).set ⟨0, 5⟩ 1) ⟨3, 9⟩
    (by decide) (by decide)

/-- C3 (amended): `getAt(x, false)` only ever returns the value of a stored
interval containing `x`; and when the stored intervals are valid and
pairwise non-overlapping, it returns such a value (never null) whenever a
containing interval exists.  With overlapping intervals the fast path may
return null even though a containing interval exists (see counterexample),
so the unconditional never-null guarantee of the claim is false. -/
theorem claim_C3 {V : Type} (m : IntervalMap V) (x : Int) (hn : m.Inv)
    (hval : ∀ e ∈ m.toArray, e.1.a ≤ e.1.b)
    (hdisj : ∀ e ∈ m.toArray, ∀ f ∈ m.toArray, e ≠ f →
      ¬(e.1.a ≤ f.1.b ∧ f.1.a ≤ e.1.b)) :
    (∀ w, m.getAt x = some w → ∃ i2, (i2, w) ∈ m.toArray ∧ i2.a ≤ x ∧ x ≤ i2.b) ∧
    ((∃ e ∈ m.toArray, e.1.a ≤ x ∧ x ≤ e.1.b) → m.getAt x ≠ none) := by
  constructor
  · intro w hw
    exact Node.getAtFast_sound hw
  · intro hx
    obtain ⟨w, hw⟩ := Node.getAtFast_disjoint_complete hn.1.1 hval hdisj hx
    show Node.getAtFast x m.root ≠ none
    rw [hw]
    simp

/-- C3 witness: on a disjoint store the fast path finds the hit. -/
theorem claim_C3_witness :
    (∀ w, (((IntervalMap.empty : IntervalMap Int).set ⟨0, 10⟩ 1).set ⟨20, 30⟩ 2).getAt 5 =
        some w →
      ∃ i2, (i2, w) ∈ (((IntervalMap.empty : IntervalMap Int).set ⟨0, 10⟩ 1).set
        ⟨20, 30⟩ 2).toArray ∧ i2.a ≤ 5 ∧ (5 : Int) ≤ i2.b) ∧
    ((∃ e ∈ (((IntervalMap.empty : IntervalMap Int).set ⟨0, 10⟩ 1).set
        ⟨20, 30⟩ 2).toArray, e.1.a ≤ 5 ∧ (5 : Int) ≤ e.1.b) →
      (((IntervalMap.empty : IntervalMap Int).set ⟨0, 10⟩ 1).set ⟨20, 30⟩ 2).getAt 5 ≠
        none) :=
  claim_C3 (((IntervalMap.empty : IntervalMap Int).set ⟨0, 10⟩ 1).set ⟨20, 30⟩ 2) 5
    (by decide) (by decide) (by decide)

/-- C3 counterexample: after `set [10,20]` and `set [0,30]` the invariants
hold and `[0,30]` contains `25`, yet `getAt 25` (fast path) returns null —
the claim's "never null when a containing interval exists" is false on the
code. -/
theorem claim_C3_counterexample :
    (((IntervalMap.empty : IntervalMap Int).set ⟨10, 20⟩ 1).set ⟨0, 30⟩ 2).Inv ∧
    (∃ e ∈ (((IntervalMap.empty : IntervalMap Int).set ⟨10, 20⟩ 1).set ⟨0, 30⟩ 2).toArray,
      e.1.a ≤ 25 ∧ (25 : Int) ≤ e.1.b) ∧
    (((IntervalMap.empty : IntervalMap Int).set ⟨10, 20⟩ 1).set ⟨0, 30⟩ 2).getAt 25 =
      none := by
  refine ⟨by decide, ⟨(⟨0, 30⟩, 2), by decide, by decide, by decide⟩, by decide⟩

/-- C4: on a tree satisfying the BST-order and subtree-max invariants,
`getOverlapping` returns exactly the stored entries passing the closed
overlap test `a <= qb ∧ qa <= b` (a filter of the in-order entries) and its
output is strictly ascending in lexicographic `(a, b)` order; the pruning
loses nothing. -/
theorem claim_C4 {V : Type} (m : IntervalMap V) (q : Interval)
    (ho : Node.Ordered m.root) (mk : Node.MaxOk m.root) :
    m.getOverlapping q = m.toArray.filter (fun e => decide (e.1.a ≤ q.b ∧ q.a ≤ e.1.b)) ∧
    (m.getOverlapping q).Pairwise (fun e f => e.1.ltI f.1) := by
  have h := Node.dfsOverlap_eq_filter q.a q.b ho mk
  refine ⟨h, ?_⟩
  show (Node.dfsOverlap q.a q.b m.root).Pairwise _
  rw [h]
  exact (Node.ordered_iff_pairwise.mp ho).filter _

/-- C4 witness: concrete instantiation. -/
theorem claim_C4_witness :
    ((((IntervalMap.empty : IntervalMap Int).set ⟨0, 3⟩ 1).set ⟨3, 5⟩ 2).getOverlapping
        ⟨3, 3⟩ =
      ((((IntervalMap.empty : IntervalMap Int).set ⟨0, 3⟩ 1).set ⟨3, 5⟩ 2).toArray.filter
        (fun e => decide (e.1.a ≤ (3 : Int) ∧ (3 : Int) ≤ e.1.b)))) ∧
    ((((IntervalMap.empty : IntervalMap Int).set ⟨0, 3⟩ 1).set ⟨3, 5⟩ 2).getOverlapping
        ⟨3, 3⟩).Pairwise (fun e f => e.1.ltI f.1) :=
  claim_C4 (((IntervalMap.empty : IntervalMap Int).set ⟨0, 3⟩ 1).set ⟨3, 5⟩ 2) ⟨3, 3⟩
    (by decide) (by decide)

/-- C5: `fromArray` first stable-sorts by `(a, b)` with ties broken by value
order when `mergeSame` (the sort is a sorted permutation of the input), then
with `mergeSame = true` the stored entries are exactly the left-to-right
sweep that merges an entry into the immediately preceding retained entry
exactly when values are equal and its start is at most the retained end
(extending the end to the max); with `mergeSame = false` the stored entries
are exactly the sorted input, so every input interval is kept. -/
theorem claim_C5 {V : Type} [LinearOrder V] (ps : List (Interval × V)) :
    (IntervalMap.fromArray (some ps) true).toArray = mergeSweep (sortPairs true ps) ∧
    (IntervalMap.fromArray (some ps) false).toArray = sortPairs false ps ∧
    (sortPairs true ps).Perm ps ∧
    (sortPairs false ps).Perm ps ∧
    (sortPairs true ps).Pairwise (fun x y => cmpPair true x y ≤ 0) ∧
    (sortPairs false ps).Pairwise (fun x y => cmpPair false x y ≤ 0) := by
  refine ⟨?_, ?_, sortPairs_perm true ps, sortPairs_perm false ps,
    sortPairs_pairwise true ps, sortPairs_pairwise false ps⟩
  · by_cases hps : ps.length = 0
    · rw [List.length_eq_zero.mp hps]
      rfl
    · have h : IntervalMap.fromArray (some ps) true =
          ⟨buildList (mergeSweep (sortPairs true ps)),
           (mergeSweep (sortPairs true ps)).length⟩ := by
        simp only [IntervalMap.fromArray]
        rw [if_neg hps]
        simp
      rw [h]
      exact inorder_buildList _
  · by_cases hps : ps.length = 0
    · rw [List.length_eq_zero.mp hps]
      rfl
    · have h : IntervalMap.fromArray (some ps) false =
          ⟨buildList (sortPairs false ps), (sortPairs false ps).length⟩ := by
        simp only [IntervalMap.fromArray]
        rw [if_neg hps]
        simp
      rw [h]
      exact inorder_buildList _

/-- C6: on a non-empty (possibly merged) array of `n` entries, the
recursive-midpoint build produces a tree of height exactly
`ceil(log2(n+1))` (`Nat.clog 2 (n+1)`), with correct height and subtree-max
caches at every node, already AVL-balanced (no rotations needed), and with
exactly `n` nodes (the map's size). -/
theorem claim_C6 {V : Type} [LinearOrder V] (ps : List (Interval × V)) (hne : ps ≠ []) :
    (buildList ps).realHeight = Nat.clog 2 (ps.length + 1) ∧
    Node.HeightsOk (buildList ps) ∧
    Node.MaxOk (buildList ps) ∧
    Node.BalancedN (buildList ps) ∧
    (buildList ps).nodeCount = ps.length :=
  ⟨realHeight_buildList ps, heightsOk_buildList ps, maxOk_buildList ps,
    balanced_buildList ps, nodeCount_buildList ps⟩

/-- C6 witness: a concrete three-entry build. -/
theorem claim_C6_witness :
    (buildList [((⟨0, 1⟩ : Interval), (1 : Int)), (⟨2, 3⟩, 2), (⟨4, 5⟩, 3)]).realHeight =
      Nat.clog 2 ([((⟨0, 1⟩ : Interval), (1 : Int)), (⟨2, 3⟩, 2), (⟨4, 5⟩, 3)].length + 1) ∧
    Node.HeightsOk (buildList [((⟨0, 1⟩ : Interval), (1 : Int)), (⟨2, 3⟩, 2), (⟨4, 5⟩, 3)]) ∧
    Node.MaxOk (buildList [((⟨0, 1⟩ : Interval), (1 : Int)), (⟨2, 3⟩, 2), (⟨4, 5⟩, 3)]) ∧
    Node.BalancedN (buildList [((⟨0, 1⟩ : Interval), (1 : Int)), (⟨2, 3⟩, 2), (⟨4, 5⟩, 3)]) ∧
    (buildList [((⟨0, 1⟩ : Interval), (1 : Int)), (⟨2, 3⟩, 2), (⟨4, 5⟩, 3)]).nodeCount =
      [((⟨0, 1⟩ : Interval), (1 : Int)), (⟨2, 3⟩, 2), (⟨4, 5⟩, 3)].length :=
  claim_C6 [((⟨0, 1⟩ : Interval), (1 : Int)), (⟨2, 3⟩, 2), (⟨4, 5⟩, 3)] (by decide)

/-- C7: on an invariant-satisfying map, deleting an absent key returns
`false` and leaves root and size completely unchanged; deleting a present
key returns `true`, removes exactly that entry from the stored entries, and
decrements `size` by exactly one. -/
theorem claim_C7 {V : Type} (m : IntervalMap V) (it : Interval) (hn : m.Inv) :
    ((¬ ∃ w, (it, w) ∈ m.toArray) → m.del it = (m, false)) ∧
    ((∃ w, (it, w) ∈ m.toArray) → (m.del it).2 = true ∧
      (m.del it).1.toArray = m.toArray.filter (fun e => decide (e.1 ≠ it)) ∧
      (m.del it).1.size + 1 = m.size) := by
  obtain ⟨hnN, hsz⟩ := hn
  obtain ⟨i1, _, _, i4, i5, i6⟩ := Node.del_spec it hnN
  constructor
  · intro habs
    exact IntervalMap.del_absent_eq m it ⟨hnN, hsz⟩ habs
  · intro hp
    have hflag : (Node.del it m.root).2 = true := i5.mpr hp
    refine ⟨hflag, i4, ?_⟩
    show (if (Node.del it m.root).2 then m.size - 1 else m.size) + 1 = m.size
    rw [hflag] at i6 ⊢
    simp only [if_pos rfl, if_true] at i6 ⊢
    omega

/-- C7 witness: a concrete absent delete and present delete. -/
theorem claim_C7_witness :
    (((IntervalMap.empty : IntervalMap Int).set ⟨1, 5⟩ 10).del ⟨9, 9⟩ =
      ((IntervalMap.empty : IntervalMap Int).set ⟨1, 5⟩ 10, false)) ∧
    ((((IntervalMap.empty : IntervalMap Int).set ⟨1, 5⟩ 10).del ⟨1, 5⟩).2 = true ∧
      (((IntervalMap.empty : IntervalMap Int).set ⟨1, 5⟩ 10).del ⟨1, 5⟩).1.toArray =
        ((IntervalMap.empty : IntervalMap Int).set ⟨1, 5⟩ 10).toArray.filter
          (fun e => decide (e.1 ≠ ⟨1, 5⟩)) ∧
      (((IntervalMap.empty : IntervalMap Int).set ⟨1, 5⟩ 10).del ⟨1, 5⟩).1.size + 1 =
        ((IntervalMap.empty : IntervalMap Int).set ⟨1, 5⟩ 10).size) :=
  ⟨(claim_C7 ((IntervalMap.empty : IntervalMap Int).set ⟨1, 5⟩ 10) ⟨9, 9⟩ (by decide)).1
      (by simp [IntervalMap.toArray, IntervalMap.set, Node.ins, Interval.compareTo]),
   (claim_C7 ((IntervalMap.empty : IntervalMap Int).set ⟨1, 5⟩ 10) ⟨1, 5⟩ (by decide)).2
      ⟨10, by simp [IntervalMap.toArray, IntervalMap.set, Node.ins]⟩⟩

/-- C8: immediately after `set(k, v)`, `get(k)` returns `v`; and if `k` was
already present, `size` is unchanged and the new tree is the old tree with
only that node's stored value overwritten (no structural or cache change). -/
theorem claim_C8 {V : Type} (m : IntervalMap V) (it : Interval) (val : V) (hn : m.Inv) :
    (m.set it val).get it = some val ∧
    ((∃ w, (it, w) ∈ m.toArray) →
      (m.set it val).size = m.size ∧
      (m.set it val).root = Node.overwrite it val m.root) := by
  obtain ⟨hnN, hsz⟩ := hn
  constructor
  · obtain ⟨⟨ho2, _, _, _⟩, _⟩ := Node.ins_spec it val hnN
    exact Node.find_eq_of_mem ho2 (Node.mem_ins_self it val m.root)
  · intro hp
    have h := Node.ins_present it val ⟨hnN.1, hnN.2.1, hnN.2.2.1, hnN.2.2.2⟩ hp
    constructor
    · show (if (Node.ins it val m.root).2 then m.size + 1 else m.size) = m.size
      rw [h]
      rfl
    · show (Node.ins it val m.root).1 = _
      rw [h]

/-- C8 witness: a concrete set-then-get and a re-set of an existing key. -/
theorem claim_C8_witness :
    ((((IntervalMap.empty : IntervalMap Int).set ⟨1, 5⟩ 10).set ⟨1, 5⟩ 12).get ⟨1, 5⟩ =
      some 12) ∧
    ((((IntervalMap.empty : IntervalMap Int).set ⟨1, 5⟩ 10).set ⟨1, 5⟩ 12).size =
      ((IntervalMap.empty : IntervalMap Int).set ⟨1, 5⟩ 10).size) :=
  ⟨(claim_C8 ((IntervalMap.empty : IntervalMap Int).set ⟨1, 5⟩ 10) ⟨1, 5⟩ 12
      (by decide)).1,
   ((claim_C8 ((IntervalMap.empty : IntervalMap Int).set ⟨1, 5⟩ 10) ⟨1, 5⟩ 12
      (by decide)).2 ⟨10, by simp [IntervalMap.toArray, IntervalMap.set, Node.ins]⟩).1⟩

/-- C9: each of the five interval-taking operations raises the
`InvalidArgument` error synchronously when the argument is not an Interval,
and it does so before any tree access (the error result does not depend on
the map at all); valid arguments pass straight through to the unguarded
operation; a missing key is reported as a normal result (`null` for `get`,
`false` for `delete`), never as an error. -/
theorem claim_C9 {V : Type} :
    (∀ (m : IntervalMap V) (t : Nat) (val : V),
      m.setChecked (.other t) val = .error "IntervalMap.set expects Interval" ∧
      m.getChecked (.other t) = .error "IntervalMap.get expects Interval" ∧
      m.delChecked (.other t) = .error "IntervalMap.delete expects Interval" ∧
      m.hasOverlapChecked (.other t) = .error "IntervalMap.hasOverlap expects Interval" ∧
      m.getOverlappingChecked (.other t) =
        .error "IntervalMap.getOverlapping expects Interval") ∧
    (∀ (m m2 : IntervalMap V) (t : Nat) (val : V),
      m.setChecked (.other t) val = m2.setChecked (.other t) val ∧
      m.getChecked (.other t) = m2.getChecked (.other t) ∧
      m.delChecked (.other t) = m2.delChecked (.other t) ∧
      m.hasOverlapChecked (.other t) = m2.hasOverlapChecked (.other t) ∧
      m.getOverlappingChecked (.other t) = m2.getOverlappingChecked (.other t)) ∧
    (∀ (m : IntervalMap V) (i : Interval) (val : V),
      m.setChecked (.ival i) val = .ok (m.set i val) ∧
      m.getChecked (.ival i) = .ok (m.get i) ∧
      m.delChecked (.ival i) = .ok (m.del i) ∧
      m.hasOverlapChecked (.ival i) = .ok (m.hasOverlap i) ∧
      m.getOverlappingChecked (.ival i) = .ok (m.getOverlapping i)) ∧
    (∀ (m : IntervalMap V) (i : Interval), (¬ ∃ w, (i, w) ∈ m.toArray) →
      m.get i = none ∧ (m.Inv → m.del i = (m, false))) := by
  refine ⟨fun m t val => ⟨rfl, rfl, rfl, rfl, rfl⟩,
    fun m m2 t val => ⟨rfl, rfl, rfl, rfl, rfl⟩,
    fun m i val => ⟨rfl, rfl, rfl, rfl, rfl⟩,
    fun m i habs => ⟨IntervalMap.get_absent m i habs,
      fun hn => IntervalMap.del_absent_eq m i hn habs⟩⟩

/-- C9 witness: a concrete rejected argument and a concrete missing key. -/
theorem claim_C9_witness :
    ((IntervalMap.empty : IntervalMap Int).setChecked (.other 0) 1 =
      .error "IntervalMap.set expects Interval") ∧
    (((IntervalMap.empty : IntervalMap Int).set ⟨0, 5⟩ 1).get ⟨7, 8⟩ = none) ∧
    (((IntervalMap.empty : IntervalMap Int).set ⟨0, 5⟩ 1).del ⟨7, 8⟩ =
      ((IntervalMap.empty : IntervalMap Int).set ⟨0, 5⟩ 1, false)) :=
  ⟨(claim_C9.1 (IntervalMap.empty : IntervalMap Int) 0 1).1,
   (claim_C9.2.2.2 ((IntervalMap.empty : IntervalMap Int).set ⟨0, 5⟩ 1) ⟨7, 8⟩
      (by simp [IntervalMap.toArray, IntervalMap.set, Node.ins])).1,
   (claim_C9.2.2.2 ((IntervalMap.empty : IntervalMap Int).set ⟨0, 5⟩ 1) ⟨7, 8⟩
      (by simp [IntervalMap.toArray, IntervalMap.set, Node.ins])).2 (by decide)⟩

/-- C10: `fromArray` with a missing (`null`/`undefined`) or empty `pairs`
argument returns a fresh empty map (empty root, size 0), raising no error,
and the result does not depend on the `mergeSame` flag at all. -/
theorem claim_C10 {V : Type} [LinearOrder V] :
    (∀ ms : Bool,
      IntervalMap.fromArray (none : Option (List (Interval × V))) ms = ⟨Node.nil, 0⟩) ∧
    (∀ ms : Bool,
      IntervalMap.fromArray (some ([] : List (Interval × V))) ms = ⟨Node.nil, 0⟩) :=
  ⟨fun _ => rfl, fun _ => rfl⟩

end IntervalMapVerif
